import Mathlib

/-!
# Poker hand evaluation of `Player.cpp`

A shallow embedding of the hand-evaluation code of `src/Player.cpp`
(`convertNumbers` .. `evaluateHand`, `makeCompleteHand`,
`findBestFiveCardHand`) together with theorems about it.

Conventions of the embedding.

* A card token (`std::string`) is a `String`; one `Char` stands for one C++
  `char`.  A hand (`std::vector<std::string>`) is a `List String`.
* A C++ function that may throw returns `Except Err _`; every exception of
  the file is a `std::invalid_argument`, kept with its message.
* `std::map` is kept as the list of its entries in ascending key order,
  which is the order in which the range-for loops of the source visit it.
* `int` values are `Int` (ranks lie in `2..14`) and occurrence counters are
  `Nat` (they are bounded by the number of cards), so no overflow arises.
-/

namespace PokerHelper

/-! ## Data model -/

/-- Ways in which a call can fail to return a value.  `invalidArgument msg` is
a thrown `std::invalid_argument(msg)`.  `outOfBounds` marks a read or write
outside a vector, which the source does not guard against (undefined behaviour
in C++, not an exception). -/
inductive Err where
  | invalidArgument (msg : String)
  | outOfBounds
  deriving DecidableEq, Repr

/-- Modelled from the spec: the enumeration `Hands` is declared in `Player.h`,
which is not among the sources; its enumerators and their increasing order
`NoMatch < OnePair < TwoPair < ThreeOfAKind < Straight < Flush < FullHouse <
FourOfAKind < StraightFlush < RoyalFlush` are those of the data model of the
specification (and the order of the cases of `handsToString`). -/
inductive Hands where
  | NoMatch
  | OnePair
  | TwoPair
  | ThreeOfAKind
  | Straight
  | Flush
  | FullHouse
  | FourOfAKind
  | StraightFlush
  | RoyalFlush
  deriving DecidableEq, Repr

/-- The integer value of an enumerator, by which `>` and `==` compare. -/
def Hands.toNat : Hands → Nat
  | .NoMatch => 0
  | .OnePair => 1
  | .TwoPair => 2
  | .ThreeOfAKind => 3
  | .Straight => 4
  | .Flush => 5
  | .FullHouse => 6
  | .FourOfAKind => 7
  | .StraightFlush => 8
  | .RoyalFlush => 9

deriving instance DecidableEq for Except

instance : LT Hands := ⟨fun a b => a.toNat < b.toNat⟩

instance : LE Hands := ⟨fun a b => a.toNat ≤ b.toNat⟩

instance (a b : Hands) : Decidable (a < b) := inferInstanceAs (Decidable (a.toNat < b.toNat))

instance (a b : Hands) : Decidable (a ≤ b) := inferInstanceAs (Decidable (a.toNat ≤ b.toNat))

/-! ## `std::map`, `std::sort`, `std::unique`, `std::is_sorted` -/

/-- The statement `m[k] = f (m[k])` on a `std::map`: `operator[]` inserts the
value-initialised element `d` when `k` is absent, and the entries stay in
ascending key order. -/
def mapModify {κ ν : Type} [LinearOrder κ] (d : ν) (f : ν → ν) (k : κ) :
    List (κ × ν) → List (κ × ν)
  | [] => [(k, f d)]
  | (k', v) :: rest =>
    if k < k' then (k, f d) :: (k', v) :: rest
    else if k = k' then (k', f v) :: rest
    else (k', v) :: mapModify d f k rest

/-- The value stored under `k`, if any. -/
def mapFind {κ ν : Type} [DecidableEq κ] (k : κ) : List (κ × ν) → Option ν
  | [] => none
  | (k', v) :: rest => if k = k' then some v else mapFind k rest

/-- The map built by `for (x : xs) counts[x]++`. -/
def countOccurrences {κ : Type} [LinearOrder κ] (xs : List κ) : List (κ × Nat) :=
  xs.foldl (fun counts x => mapModify 0 (· + 1) x counts) []

/-- The map built by `suitToNumbers[suits[i]].push_back(numbers[i])` for
`i = 0 .. numbers.size() - 1`; both vectors have one entry per card. -/
def groupBySuit (suits : List Char) (numbers : List Int) : List (Char × List Int) :=
  (suits.zip numbers).foldl (fun m p => mapModify [] (· ++ [p.2]) p.1 m) []

/-- The result of `std::sort` on a vector of `int`: its ascending rearrangement. -/
def sortInts (l : List Int) : List Int :=
  l.insertionSort (· ≤ ·)

/-- The vector left by `std::unique` followed by `erase`: of every run of equal
neighbours one element is kept. -/
def unique : List Int → List Int
  | [] => []
  | [a] => [a]
  | a :: b :: rest => if a = b then unique (b :: rest) else a :: unique (b :: rest)

/-- The test `std::is_sorted`: no element is smaller than the one before it. -/
def isSorted : List Int → Bool
  | a :: b :: rest => decide (a ≤ b) && isSorted (b :: rest)
  | _ => true

/-! ## Conversions -/

/-- The function `convertNumbers`. -/
def convertNumbers (rank : Char) : Except Err Int :=
  if '2' ≤ rank ∧ rank ≤ '9' then .ok ((rank.toNat : Int) - ('0'.toNat : Int))
  else if rank = 'T' then .ok 10
  else if rank = 'J' then .ok 11
  else if rank = 'Q' then .ok 12
  else if rank = 'K' then .ok 13
  else if rank = 'A' then .ok 14
  else .error (.invalidArgument "Invalid character for rank")

/-- The function `convertHandToNumbers`: the cards are converted from first to
last and the first failure is the one thrown. -/
def convertHandToNumbers : List String → Except Err (List Int)
  | [] => .ok []
  | card :: rest =>
    match card.data with
    | [r, _] =>
      match convertNumbers r with
      | .error e => .error e
      | .ok number =>
        match convertHandToNumbers rest with
        | .error e => .error e
        | .ok numbers => .ok (number :: numbers)
    | _ => .error (.invalidArgument "wrong hand format")

/-- The set `suitSet` of `convertHandToSuits`. -/
def suitSet : List Char := ['C', 'S', 'D', 'H']

/-- The function `convertHandToSuits`. -/
def convertHandToSuits : List String → Except Err (List Char)
  | [] => .ok []
  | card :: rest =>
    match card.data with
    | [_, suit] =>
      if suit ∈ suitSet then
        match convertHandToSuits rest with
        | .error e => .error e
        | .ok suits => .ok (suit :: suits)
      else .error (.invalidArgument "wrong suit")
    | _ => .error (.invalidArgument "wrong hand format")

/-! ## Detectors -/

/-- The method `Player::isOnePair`. -/
def isOnePair (completeHand : List String) : Except Err Bool :=
  match convertHandToNumbers completeHand with
  | .error e => .error e
  | .ok numbers => .ok ((countOccurrences numbers).any (fun count => count.2 == 2))

/-- The second loop of `Player::isTwoPair`, with the running `pairCount`. -/
def twoPairLoop : List (Int × Nat) → Nat → Bool
  | [], _ => false
  | count :: rest, pairCount =>
    if count.2 = 2 then
      if pairCount + 1 ≥ 2 then true else twoPairLoop rest (pairCount + 1)
    else twoPairLoop rest pairCount

/-- The method `Player::isTwoPair`. -/
def isTwoPair (completeHand : List String) : Except Err Bool :=
  match convertHandToNumbers completeHand with
  | .error e => .error e
  | .ok numbers => .ok (twoPairLoop (countOccurrences numbers) 0)

/-- The method `Player::isThreeOfAKind`. -/
def isThreeOfAKind (completeHand : List String) : Except Err Bool :=
  match convertHandToNumbers completeHand with
  | .error e => .error e
  | .ok numbers => .ok ((countOccurrences numbers).any (fun count => count.2 == 3))

/-- The body of `Player::isStraight` after the conversion: sort, drop
duplicates, give up below five ranks, look at every window of five, and last
test the wheel on the first five entries. -/
def straightOfNumbers (converted : List Int) : Bool :=
  let numbers := unique (sortInts converted)
  if numbers.length < 5 then false
  else
    (List.range (numbers.length - 5 + 1)).any (fun i =>
        isSorted ((numbers.drop i).take 5) &&
          decide (numbers.getD (i + 4) 0 - numbers.getD i 0 = 4))
      || (decide (numbers.getD 0 0 = 2) && decide (numbers.getD 1 0 = 3)
          && decide (numbers.getD 2 0 = 4) && decide (numbers.getD 3 0 = 5)
          && decide (numbers.getD 4 0 = 14))

/-- The method `Player::isStraight`. -/
def isStraight (completeHand : List String) : Except Err Bool :=
  match convertHandToNumbers completeHand with
  | .error e => .error e
  | .ok numbers => .ok (straightOfNumbers numbers)

/-- The loop of `Player::isFlush`: count the suit, return as soon as a counter
reaches five. -/
def flushLoop : List Char → List (Char × Nat) → Bool
  | [], _ => false
  | suit :: rest, counts =>
    let counts1 := mapModify 0 (· + 1) suit counts
    if (mapFind suit counts1).getD 0 ≥ 5 then true else flushLoop rest counts1

/-- The method `Player::isFlush`. -/
def isFlush (completeHand : List String) : Except Err Bool :=
  match convertHandToSuits completeHand with
  | .error e => .error e
  | .ok suits => .ok (flushLoop suits [])

/-- The body of `Player::isFullHouse` on the map of counts: the first entry
with a count of at least three gives `tripleValue` (which stays `0` when there
is none), then a pair is searched among the other keys. -/
def fullHouseOfCounts (counts : List (Int × Nat)) : Bool :=
  let triple := counts.find? (fun count => decide (count.2 ≥ 3))
  let hasThreeOfAKind := triple.isSome
  let tripleValue : Int := match triple with
    | some count => count.1
    | none => 0
  let hasPair := counts.any (fun count => decide (count.1 ≠ tripleValue) && decide (count.2 ≥ 2))
  hasThreeOfAKind && hasPair

/-- The method `Player::isFullHouse`. -/
def isFullHouse (completeHand : List String) : Except Err Bool :=
  match convertHandToNumbers completeHand with
  | .error e => .error e
  | .ok numbers => .ok (fullHouseOfCounts (countOccurrences numbers))

/-- The method `Player::isFourOfAKind`. -/
def isFourOfAKind (completeHand : List String) : Except Err Bool :=
  match convertHandToNumbers completeHand with
  | .error e => .error e
  | .ok numbers => .ok ((countOccurrences numbers).any (fun count => count.2 == 4))

/-- The inner loop of `Player::isStraightFlush` from index `i` on: `prev` is
`sortedNums[i - 1]` and `consecutiveCount` the running counter. -/
def consecutiveScan : List Int → Int → Nat → Bool
  | [], _, _ => false
  | x :: rest, prev, consecutiveCount =>
    let count1 := if x = prev + 1 then consecutiveCount + 1
      else if x ≠ prev then 1 else consecutiveCount
    if count1 ≥ 5 then true else consecutiveScan rest x count1

/-- The test made by `Player::isStraightFlush` on the numbers of one suit. -/
def suitHasStraight (nums : List Int) : Bool :=
  if nums.length < 5 then false
  else
    match sortInts nums with
    | [] => false
    | first :: rest => consecutiveScan rest first 1

/-- The method `Player::isStraightFlush`. -/
def isStraightFlush (completeHand : List String) : Except Err Bool :=
  match convertHandToNumbers completeHand with
  | .error e => .error e
  | .ok numbers =>
    match convertHandToSuits completeHand with
    | .error e => .error e
    | .ok suits => .ok ((groupBySuit suits numbers).any (fun pair => suitHasStraight pair.2))

/-- The test made by `Player::isRoyalFlush` on the numbers of one suit. -/
def suitHasRoyal (nums : List Int) : Bool :=
  match sortInts nums with
  | a :: b :: c :: d :: e :: _ =>
    decide (a = 10) && decide (b = 11) && decide (c = 12) && decide (d = 13) && decide (e = 14)
  | _ => false

/-- The method `Player::isRoyalFlush`. -/
def isRoyalFlush (completeHand : List String) : Except Err Bool :=
  match convertHandToNumbers completeHand with
  | .error e => .error e
  | .ok numbers =>
    match convertHandToSuits completeHand with
    | .error e => .error e
    | .ok suits => .ok ((groupBySuit suits numbers).any (fun entry => suitHasRoyal entry.2))

/-! ## Classification -/

/-- The method `Player::evaluateHand`: the detectors are called from the
strongest category down, and an exception of a detector leaves the function. -/
def evaluateHand (hand : List String) : Except Err Hands :=
  match isRoyalFlush hand with
  | .error e => .error e
  | .ok true => .ok .RoyalFlush
  | .ok false =>
  match isStraightFlush hand with
  | .error e => .error e
  | .ok true => .ok .StraightFlush
  | .ok false =>
  match isFourOfAKind hand with
  | .error e => .error e
  | .ok true => .ok .FourOfAKind
  | .ok false =>
  match isFullHouse hand with
  | .error e => .error e
  | .ok true => .ok .FullHouse
  | .ok false =>
  match isFlush hand with
  | .error e => .error e
  | .ok true => .ok .Flush
  | .ok false =>
  match isStraight hand with
  | .error e => .error e
  | .ok true => .ok .Straight
  | .ok false =>
  match isThreeOfAKind hand with
  | .error e => .error e
  | .ok true => .ok .ThreeOfAKind
  | .ok false =>
  match isTwoPair hand with
  | .error e => .error e
  | .ok true => .ok .TwoPair
  | .ok false =>
  match isOnePair hand with
  | .error e => .error e
  | .ok true => .ok .OnePair
  | .ok false => .ok .NoMatch

/-! ## Complete hand -/

/-- One of the two loops of `Player::makeCompleteHand`: every card is inserted
into `cardSet` (a `std::set`, kept as the list of its elements) and the call
throws at the first card that is already there. -/
def insertCards : List String → List String → List String →
    Except Err (List String × List String)
  | [], cardSet, completeHand => .ok (cardSet, completeHand)
  | card :: rest, cardSet, completeHand =>
    if card ∈ cardSet then .error (.invalidArgument ("Duplicate card found: " ++ card))
    else insertCards rest (card :: cardSet) (completeHand ++ [card])

/-- The method `Player::makeCompleteHand`; the member `holeCards` of the player
is the first argument. -/
def makeCompleteHand (holeCards communityCards : List String) : Except Err (List String) :=
  match insertCards communityCards [] [] with
  | .error e => .error e
  | .ok (cardSet, completeHand) =>
    match insertCards holeCards cardSet completeHand with
    | .error e => .error e
    | .ok (_, completeHand1) => .ok completeHand1

/-! ## Best five cards of seven -/

/-- The standard algorithm `std::prev_permutation` on a `std::vector<bool>`
(`false < true`).  With `i` the last position whose successor is smaller and
`j` the last position holding a value smaller than the one at `i`, the two
are swapped and the part after `i` is reversed; the flag is `true`.  Without
such an `i` the range is reversed and the flag is `false`. -/
def prevPermutation (a : List Bool) : List Bool × Bool :=
  match ((List.range (a.length - 1)).reverse).find?
      (fun i => decide (a.getD (i + 1) false < a.getD i false)) with
  | none => (a.reverse, false)
  | some i =>
    let j := (((List.range a.length).reverse).find?
      (fun j => decide (a.getD j false < a.getD i false))).getD (i + 1)
    let swapped := (a.set i (a.getD j false)).set j (a.getD i false)
    (swapped.take (i + 1) ++ (swapped.drop (i + 1)).reverse, true)

/-- The loop `for (int i = 0; i < 7; ++i) if (select[i]) currentHand[index++] =
completeHand[i];` of `Player::findBestFiveCardHand`, with `n` iterations left. -/
def gatherLoop (select : List Bool) (completeHand : List String) :
    Nat → Nat → Nat → List String → Except Err (List String)
  | 0, _, _, currentHand => .ok currentHand
  | n + 1, i, index, currentHand =>
    if select.getD i false then
      match completeHand[i]? with
      | none => .error .outOfBounds
      | some card =>
        if index < currentHand.length then
          gatherLoop select completeHand n (i + 1) (index + 1) (currentHand.set index card)
        else .error .outOfBounds
    else gatherLoop select completeHand n (i + 1) index currentHand

/-- The mask `select` before the loop: seven flags, the first five set. -/
def initialSelect : List Bool := [true, true, true, true, true, false, false]

/-- The `do .. while (std::prev_permutation(select))` loop of
`Player::findBestFiveCardHand`.  `compareSameHands` stands for
`Game::compareSameHands`, which is not part of the sources.  Each iteration
uses one unit of `fuel`; `none` means that the loop has not ended within it. -/
def selectLoop (compareSameHands : List String → List String → Int)
    (completeHand : List String) :
    Nat → List Bool → List String → List String → Hands → Option (Except Err (List String))
  | 0, _, _, _, _ => none
  | fuel + 1, select, currentHand, bestHand, bestRank =>
    match gatherLoop select completeHand 7 0 0 currentHand with
    | .error e => some (.error e)
    | .ok current =>
      match evaluateHand current with
      | .error e => some (.error e)
      | .ok currentRank =>
        let comparisonResult := compareSameHands current bestHand
        let better : Bool := decide (currentRank > bestRank) ||
          (decide (currentRank = bestRank) && decide (comparisonResult = 1))
        let bestRank1 := if better then currentRank else bestRank
        let bestHand1 := if better then current else bestHand
        let next := prevPermutation select
        if next.2 then selectLoop compareSameHands completeHand fuel next.1 current bestHand1 bestRank1
        else some (.ok bestHand1)

/-- The method `Player::findBestFiveCardHand`, with the comparator as a
parameter and `fuel` bounding the number of loop iterations. -/
def findBestFiveCardHand (compareSameHands : List String → List String → Int) (fuel : Nat)
    (completeHand : List String) : Option (Except Err (List String)) :=
  if completeHand.length < 5 then some (.error .outOfBounds)
  else
    let bestHand := completeHand.take 5
    match evaluateHand bestHand with
    | .error e => some (.error e)
    | .ok bestRank =>
      selectLoop compareSameHands completeHand fuel initialSelect (List.replicate 5 "")
        bestHand bestRank

/-! ## Valid tokens and the cards they denote -/

/-- The rank characters of a card token. -/
def rankChars : List Char := ['2', '3', '4', '5', '6', '7', '8', '9', 'T', 'J', 'Q', 'K', 'A']

/-- The suit characters of a card token. -/
def suitChars : List Char := ['C', 'S', 'D', 'H']

/-- A token is valid when it has two characters, the first a rank character
and the second a suit character. -/
def ValidToken (t : String) : Prop :=
  t.length = 2 ∧ t.data.getD 0 ' ' ∈ rankChars ∧ t.data.getD 1 ' ' ∈ suitChars

instance (t : String) : Decidable (ValidToken t) :=
  inferInstanceAs (Decidable (_ ∧ _ ∧ _))

/-- The rank of the data model for a rank character: `2..9` for the digits,
`10..14` for `T`, `J`, `Q`, `K`, `A`. -/
def rankValue (c : Char) : Int :=
  if c = '2' then 2 else if c = '3' then 3 else if c = '4' then 4
  else if c = '5' then 5 else if c = '6' then 6 else if c = '7' then 7
  else if c = '8' then 8 else if c = '9' then 9 else if c = 'T' then 10
  else if c = 'J' then 11 else if c = 'Q' then 12 else if c = 'K' then 13
  else if c = 'A' then 14 else 0

/-- The rank of a card token. -/
def cardRank (t : String) : Int := rankValue (t.data.getD 0 ' ')

/-- The suit of a card token. -/
def cardSuit (t : String) : Char := t.data.getD 1 ' '

/-! ## Notions used to state the selection claims -/

/-- The values of `select` at the start of the first `n` iterations of the
do-while loop of `findBestFiveCardHand` begun at `select`, and whether the
loop has ended within these `n` iterations. -/
def visitedMasks : Nat → List Bool → List (List Bool) × Bool
  | 0, _ => ([], false)
  | n + 1, select =>
    let next := prevPermutation select
    if next.2 then (select :: (visitedMasks n next.1).1, (visitedMasks n next.1).2)
    else ([select], true)

/-- The 21 masks of length seven with five flags set, in decreasing
lexicographic order (`true` above `false`). -/
def fiveOfSeven : List (List Bool) :=
  [[true, true, true, true, true, false, false], [true, true, true, true, false, true, false],
   [true, true, true, true, false, false, true], [true, true, true, false, true, true, false],
   [true, true, true, false, true, false, true], [true, true, true, false, false, true, true],
   [true, true, false, true, true, true, false], [true, true, false, true, true, false, true],
   [true, true, false, true, false, true, true], [true, true, false, false, true, true, true],
   [true, false, true, true, true, true, false], [true, false, true, true, true, false, true],
   [true, false, true, true, false, true, true], [true, false, true, false, true, true, true],
   [true, false, false, true, true, true, true], [false, true, true, true, true, true, false],
   [false, true, true, true, true, false, true], [false, true, true, true, false, true, true],
   [false, true, true, false, true, true, true], [false, true, false, true, true, true, true],
   [false, false, true, true, true, true, true]]

/-- The cards of a hand at the positions where the mask is set, in order. -/
def pickMask : List Bool → List String → List String
  | true :: mask, card :: hand => card :: pickMask mask hand
  | false :: mask, _ :: hand => pickMask mask hand
  | _, _ => []

/-- The category of a hand, `NoMatch` standing in where `evaluateHand` throws. -/
def categoryOf (hand : List String) : Hands :=
  match evaluateHand hand with
  | .ok c => c
  | .error _ => .NoMatch

/-- The test of the selection loop: the candidate beats the running best when
its category is higher, or equal with the comparator returning `1`. -/
def beats (compareSameHands : List String → List String → Int)
    (candidate best : List String) : Bool :=
  decide (categoryOf candidate > categoryOf best) ||
    (decide (categoryOf candidate = categoryOf best) &&
      decide (compareSameHands candidate best = 1))

/-- The running best after the candidates have been compared with it in turn. -/
def selectFold (compareSameHands : List String → List String → Int) :
    List String → List (List String) → List String
  | best, [] => best
  | best, candidate :: rest =>
    selectFold compareSameHands
      (if beats compareSameHands candidate best then candidate else best) rest

/-- The positions at which a mask is set, counted from `start`. -/
def maskPositions : List Bool → Nat → List Nat
  | [], _ => []
  | true :: mask, start => start :: maskPositions mask (start + 1)
  | false :: mask, start => maskPositions mask (start + 1)

/-! ## Choice of an action -/

/-- The call `actions.erase(actions.begin() + k)`; erasing at or past the end
of the vector is undefined behaviour. -/
def eraseAt (actions : List Int) (k : Nat) : Except Err (List Int) :=
  if k < actions.length then .ok (actions.eraseIdx k) else .error .outOfBounds

/-- The vector `actions` of `Player::chooseAction` at the point where the
random index is drawn.  `round`, `hasBet` and `maxBetting` stand for
`game.getRound()`, `game.getHasBet()` and `game.getMaxBetting()` (the class
`Game` is not part of the sources), `coinBet` for `getCoinBet()`. -/
def chooseActionList (round : Int) (hasBet : Bool) (coinBet maxBetting : Int) :
    Except Err (List Int) :=
  let actions0 : List Int := [1, 2, 3, 4, 5]
  let step1 : Except Err (List Int) :=
    if round ≠ 1 ∧ hasBet = false then eraseAt actions0 0 else .ok actions0
  match step1 with
  | .error e => .error e
  | .ok actions1 =>
    let step2 : Except Err (List Int) :=
      if hasBet = true then
        match eraseAt actions1 1 with
        | .error e => .error e
        | .ok erased => eraseAt erased 3
      else .ok actions1
    match step2 with
    | .error e => .error e
    | .ok actions2 =>
      let step3 : Except Err (List Int) :=
        if hasBet = false then eraseAt actions2 4 else .ok actions2
      match step3 with
      | .error e => .error e
      | .ok actions3 =>
        if coinBet ≥ maxBetting then eraseAt actions3 2 else .ok actions3

/-- The method `Player::chooseAction`; `randomIndex` is the value drawn from
`0 .. actions.size() - 1`. -/
def chooseAction (round : Int) (hasBet : Bool) (coinBet maxBetting : Int) (randomIndex : Nat) :
    Except Err Int :=
  match chooseActionList round hasBet coinBet maxBetting with
  | .error e => .error e
  | .ok actions =>
    match actions[randomIndex]? with
    | some action => .ok action
    | none => .error .outOfBounds

/-! # Lemmas on the conversions -/

theorem digit_range (c : Char) (h : '2' ≤ c ∧ c ≤ '9') : c ∈ rankChars := by
  obtain ⟨h1, h2⟩ := h
  have h1' : 50 ≤ c.toNat := h1
  have h2' : c.toNat ≤ 57 := h2
  have hc : c = Char.ofNat c.toNat := (Char.ofNat_toNat c).symm
  generalize c.toNat = n at *
  subst hc
  interval_cases n <;> decide

theorem convertNumbers_of_mem (c : Char) (h : c ∈ rankChars) :
    convertNumbers c = .ok (rankValue c) := by
  simp only [rankChars, List.mem_cons, List.mem_singleton, List.not_mem_nil, or_false] at h
  rcases h with h | h | h | h | h | h | h | h | h | h | h | h | h <;> subst h <;> rfl

theorem convertNumbers_of_not_mem (c : Char) (h : c ∉ rankChars) :
    convertNumbers c = .error (.invalidArgument "Invalid character for rank") := by
  have h0 : ¬ ('2' ≤ c ∧ c ≤ '9') := fun hh => h (digit_range c hh)
  simp only [rankChars, List.mem_cons, List.mem_singleton, List.not_mem_nil, or_false,
    not_or] at h
  obtain ⟨-, -, -, -, -, -, -, -, hT, hJ, hQ, hK, hA⟩ := h
  simp only [convertNumbers, h0, hT, hJ, hQ, hK, hA, if_false]

theorem data_of_length_two (t : String) (h : t.length = 2) :
    t.data = [t.data.getD 0 ' ', t.data.getD 1 ' '] := by
  have h2 : t.data.length = 2 := h
  match hd : t.data, h2 with
  | [a, b], _ => rfl

theorem data_ne_of_length_ne_two (t : String) (h : t.length ≠ 2) (r s : Char) :
    t.data ≠ [r, s] := by
  intro hd
  apply h
  show t.data.length = 2
  rw [hd]
  rfl

/-- On tokens of two characters with a rank character first, the conversion
returns the ranks of the cards, in order. -/
theorem convertHandToNumbers_ok (hand : List String)
    (hv : ∀ t ∈ hand, t.length = 2 ∧ t.data.getD 0 ' ' ∈ rankChars) :
    convertHandToNumbers hand = .ok (hand.map cardRank) := by
  induction hand with
  | nil => rfl
  | cons t rest ih =>
    have ht := hv t (List.mem_cons_self _ _)
    have ih1 := ih (fun u hu => hv u (List.mem_cons_of_mem _ hu))
    have hd := data_of_length_two t ht.1
    rw [convertHandToNumbers]
    rw [hd]
    simp only [convertNumbers_of_mem _ ht.2, ih1, List.map_cons, cardRank]

theorem convertHandToNumbers_error (hand : List String)
    (hv : ∃ t ∈ hand, ¬ (t.length = 2 ∧ t.data.getD 0 ' ' ∈ rankChars)) :
    ∃ e, convertHandToNumbers hand = .error e := by
  induction hand with
  | nil => simp at hv
  | cons t rest ih =>
    rw [convertHandToNumbers]
    by_cases hl : t.length = 2
    · have hd := data_of_length_two t hl
      rw [hd]
      by_cases hr : t.data.getD 0 ' ' ∈ rankChars
      · have hrest : ∃ u ∈ rest, ¬ (u.length = 2 ∧ u.data.getD 0 ' ' ∈ rankChars) := by
          obtain ⟨u, hu, hbad⟩ := hv
          rcases List.mem_cons.mp hu with rfl | hu
          · exact absurd ⟨hl, hr⟩ hbad
          · exact ⟨u, hu, hbad⟩
        obtain ⟨e, he⟩ := ih hrest
        exact ⟨e, by simp only [convertNumbers_of_mem _ hr, he]⟩
      · exact ⟨.invalidArgument "Invalid character for rank",
          by simp only [convertNumbers_of_not_mem _ hr]⟩
    · refine ⟨.invalidArgument "wrong hand format", ?_⟩
      split
      · rename_i r s hd
        exact absurd hd (data_ne_of_length_ne_two t hl r s)
      · rfl

theorem convertHandToSuits_ok (hand : List String)
    (hv : ∀ t ∈ hand, t.length = 2 ∧ t.data.getD 1 ' ' ∈ suitChars) :
    convertHandToSuits hand = .ok (hand.map cardSuit) := by
  induction hand with
  | nil => rfl
  | cons t rest ih =>
    have ht := hv t (List.mem_cons_self _ _)
    have ih1 := ih (fun u hu => hv u (List.mem_cons_of_mem _ hu))
    have hd := data_of_length_two t ht.1
    have hs : t.data.getD 1 ' ' ∈ suitSet := ht.2
    rw [convertHandToSuits]
    rw [hd]
    simp only [hs, ih1, List.map_cons, cardSuit, if_true]

theorem convertHandToSuits_error (hand : List String)
    (hv : ∃ t ∈ hand, ¬ (t.length = 2 ∧ t.data.getD 1 ' ' ∈ suitChars)) :
    ∃ e, convertHandToSuits hand = .error e := by
  induction hand with
  | nil => simp at hv
  | cons t rest ih =>
    rw [convertHandToSuits]
    by_cases hl : t.length = 2
    · have hd := data_of_length_two t hl
      rw [hd]
      by_cases hr : t.data.getD 1 ' ' ∈ suitChars
      · have hrest : ∃ u ∈ rest, ¬ (u.length = 2 ∧ u.data.getD 1 ' ' ∈ suitChars) := by
          obtain ⟨u, hu, hbad⟩ := hv
          rcases List.mem_cons.mp hu with rfl | hu
          · exact absurd ⟨hl, hr⟩ hbad
          · exact ⟨u, hu, hbad⟩
        obtain ⟨e, he⟩ := ih hrest
        have hs : t.data.getD 1 ' ' ∈ suitSet := hr
        exact ⟨e, by simp only [hs, he, if_true]⟩
      · have hs : t.data.getD 1 ' ' ∉ suitSet := hr
        exact ⟨.invalidArgument "wrong suit", by simp only [hs, if_false]⟩
    · refine ⟨.invalidArgument "wrong hand format", ?_⟩
      split
      · rename_i r s hd
        exact absurd hd (data_ne_of_length_ne_two t hl r s)
      · rfl

/-! # Totality of the detectors on valid tokens -/

theorem valid_numbers (hand : List String) (hv : ∀ t ∈ hand, ValidToken t) :
    convertHandToNumbers hand = .ok (hand.map cardRank) :=
  convertHandToNumbers_ok hand (fun t ht => ⟨(hv t ht).1, (hv t ht).2.1⟩)

theorem valid_suits (hand : List String) (hv : ∀ t ∈ hand, ValidToken t) :
    convertHandToSuits hand = .ok (hand.map cardSuit) :=
  convertHandToSuits_ok hand (fun t ht => ⟨(hv t ht).1, (hv t ht).2.2⟩)

theorem isOnePair_valid (hand : List String) (hv : ∀ t ∈ hand, ValidToken t) :
    isOnePair hand
      = .ok ((countOccurrences (hand.map cardRank)).any (fun count => count.2 == 2)) := by
  simp only [isOnePair, valid_numbers hand hv]

theorem isTwoPair_valid (hand : List String) (hv : ∀ t ∈ hand, ValidToken t) :
    isTwoPair hand = .ok (twoPairLoop (countOccurrences (hand.map cardRank)) 0) := by
  simp only [isTwoPair, valid_numbers hand hv]

theorem isThreeOfAKind_valid (hand : List String) (hv : ∀ t ∈ hand, ValidToken t) :
    isThreeOfAKind hand
      = .ok ((countOccurrences (hand.map cardRank)).any (fun count => count.2 == 3)) := by
  simp only [isThreeOfAKind, valid_numbers hand hv]

theorem isStraight_valid (hand : List String) (hv : ∀ t ∈ hand, ValidToken t) :
    isStraight hand = .ok (straightOfNumbers (hand.map cardRank)) := by
  simp only [isStraight, valid_numbers hand hv]

theorem isFlush_valid (hand : List String) (hv : ∀ t ∈ hand, ValidToken t) :
    isFlush hand = .ok (flushLoop (hand.map cardSuit) []) := by
  simp only [isFlush, valid_suits hand hv]

theorem isFullHouse_valid (hand : List String) (hv : ∀ t ∈ hand, ValidToken t) :
    isFullHouse hand = .ok (fullHouseOfCounts (countOccurrences (hand.map cardRank))) := by
  simp only [isFullHouse, valid_numbers hand hv]

theorem isFourOfAKind_valid (hand : List String) (hv : ∀ t ∈ hand, ValidToken t) :
    isFourOfAKind hand
      = .ok ((countOccurrences (hand.map cardRank)).any (fun count => count.2 == 4)) := by
  simp only [isFourOfAKind, valid_numbers hand hv]

theorem isStraightFlush_valid (hand : List String) (hv : ∀ t ∈ hand, ValidToken t) :
    isStraightFlush hand
      = .ok ((groupBySuit (hand.map cardSuit) (hand.map cardRank)).any
          (fun pair => suitHasStraight pair.2)) := by
  simp only [isStraightFlush, valid_numbers hand hv, valid_suits hand hv]

theorem isRoyalFlush_valid (hand : List String) (hv : ∀ t ∈ hand, ValidToken t) :
    isRoyalFlush hand
      = .ok ((groupBySuit (hand.map cardSuit) (hand.map cardRank)).any
          (fun entry => suitHasRoyal entry.2)) := by
  simp only [isRoyalFlush, valid_numbers hand hv, valid_suits hand hv]

/-- The value of `evaluateHand` once every detector has returned. -/
theorem evaluateHand_of_detectors (hand : List String) (rf sf fk fh fl st tk tp op : Bool)
    (h1 : isRoyalFlush hand = .ok rf) (h2 : isStraightFlush hand = .ok sf)
    (h3 : isFourOfAKind hand = .ok fk) (h4 : isFullHouse hand = .ok fh)
    (h5 : isFlush hand = .ok fl) (h6 : isStraight hand = .ok st)
    (h7 : isThreeOfAKind hand = .ok tk) (h8 : isTwoPair hand = .ok tp)
    (h9 : isOnePair hand = .ok op) :
    evaluateHand hand = .ok
      (if rf then .RoyalFlush else if sf then .StraightFlush else if fk then .FourOfAKind
       else if fh then .FullHouse else if fl then .Flush else if st then .Straight
       else if tk then .ThreeOfAKind else if tp then .TwoPair else if op then .OnePair
       else .NoMatch) := by
  simp only [evaluateHand, h1, h2, h3, h4, h5, h6, h7, h8, h9]
  cases rf <;> cases sf <;> cases fk <;> cases fh <;> cases fl <;> cases st <;> cases tk <;>
    cases tp <;> cases op <;> rfl

/-- On valid tokens `evaluateHand` returns a category. -/
theorem evaluateHand_valid (hand : List String) (hv : ∀ t ∈ hand, ValidToken t) :
    ∃ c, evaluateHand hand = .ok c :=
  ⟨_, evaluateHand_of_detectors hand _ _ _ _ _ _ _ _ _ (isRoyalFlush_valid hand hv)
    (isStraightFlush_valid hand hv) (isFourOfAKind_valid hand hv) (isFullHouse_valid hand hv)
    (isFlush_valid hand hv) (isStraight_valid hand hv) (isThreeOfAKind_valid hand hv)
    (isTwoPair_valid hand hv) (isOnePair_valid hand hv)⟩

/-- A token that is not valid makes `evaluateHand` throw: the first detector
converts the whole hand to numbers and to suits before anything else. -/
theorem evaluateHand_invalid (hand : List String) (hv : ∃ t ∈ hand, ¬ ValidToken t) :
    ∃ e, evaluateHand hand = .error e := by
  obtain ⟨t, ht, hbad⟩ := hv
  by_cases hn : ∀ u ∈ hand, u.length = 2 ∧ u.data.getD 0 ' ' ∈ rankChars
  · have hs : ∃ u ∈ hand, ¬ (u.length = 2 ∧ u.data.getD 1 ' ' ∈ suitChars) := by
      refine ⟨t, ht, fun hh => hbad ⟨hh.1, (hn t ht).2, hh.2⟩⟩
    obtain ⟨e, he⟩ := convertHandToSuits_error hand hs
    refine ⟨e, ?_⟩
    simp only [evaluateHand, isRoyalFlush, convertHandToNumbers_ok hand hn, he]
  · have hn1 : ∃ u ∈ hand, ¬ (u.length = 2 ∧ u.data.getD 0 ' ' ∈ rankChars) := by
      by_contra hcon
      exact hn (fun u hu => by_contra (fun hh => hcon ⟨u, hu, hh⟩))
    obtain ⟨e, he⟩ := convertHandToNumbers_error hand hn1
    refine ⟨e, ?_⟩
    simp only [evaluateHand, isRoyalFlush, he]

/-! # Lemmas on `makeCompleteHand` -/

theorem insertCards_ok (cards cardSet acc : List String)
    (hset : ∀ x, x ∈ cardSet ↔ x ∈ acc) (hnd : (acc ++ cards).Nodup) :
    ∃ cardSet1, insertCards cards cardSet acc = .ok (cardSet1, acc ++ cards) ∧
      ∀ x, x ∈ cardSet1 ↔ x ∈ acc ++ cards := by
  induction cards generalizing cardSet acc with
  | nil => exact ⟨cardSet, by simp [insertCards], by simpa using hset⟩
  | cons c rest ih =>
    have hc : c ∉ cardSet := by
      rw [hset]
      intro hmem
      have := (List.nodup_append.mp hnd).2.2 hmem (List.mem_cons_self _ _)
      exact this
    have hnd1 : ((acc ++ [c]) ++ rest).Nodup := by simpa using hnd
    have hset1 : ∀ x, x ∈ c :: cardSet ↔ x ∈ acc ++ [c] := by
      intro x
      simp only [List.mem_cons, List.mem_append, List.mem_singleton, List.not_mem_nil,
        or_false, hset x]
      exact or_comm
    obtain ⟨s1, h1, h2⟩ := ih (c :: cardSet) (acc ++ [c]) hset1 hnd1
    refine ⟨s1, ?_, ?_⟩
    · rw [insertCards, if_neg hc, h1]
      simp
    · intro x
      rw [h2 x]
      simp

theorem insertCards_error (cards cardSet acc : List String)
    (hset : ∀ x, x ∈ cardSet ↔ x ∈ acc) (hacc : acc.Nodup) (hnd : ¬ (acc ++ cards).Nodup) :
    ∃ card ∈ cards,
      insertCards cards cardSet acc
        = .error (.invalidArgument ("Duplicate card found: " ++ card)) := by
  induction cards generalizing cardSet acc with
  | nil => exact absurd (by simpa using hacc) hnd
  | cons c rest ih =>
    by_cases hc : c ∈ cardSet
    · exact ⟨c, List.mem_cons_self _ _, by rw [insertCards, if_pos hc]⟩
    · have hc1 : c ∉ acc := fun h => hc ((hset c).mpr h)
      have hacc1 : (acc ++ [c]).Nodup := by
        rw [List.nodup_append]
        refine ⟨hacc, List.nodup_singleton c, ?_⟩
        intro x hx hx1
        rw [List.mem_singleton] at hx1
        exact hc1 (hx1 ▸ hx)
      have hnd1 : ¬ ((acc ++ [c]) ++ rest).Nodup := by simpa using hnd
      have hset1 : ∀ x, x ∈ c :: cardSet ↔ x ∈ acc ++ [c] := by
        intro x
        simp only [List.mem_cons, List.mem_append, List.mem_singleton, List.not_mem_nil,
          or_false, hset x]
        exact or_comm
      obtain ⟨card, hmem, herr⟩ := ih (c :: cardSet) (acc ++ [c]) hset1 hacc1 hnd1
      exact ⟨card, List.mem_cons_of_mem _ hmem, by rw [insertCards, if_neg hc, herr]⟩

theorem makeCompleteHand_nodup (holeCards communityCards : List String)
    (hnd : (communityCards ++ holeCards).Nodup) :
    makeCompleteHand holeCards communityCards = .ok (communityCards ++ holeCards) := by
  have hc : ([] ++ communityCards).Nodup := by
    simpa using (List.nodup_append.mp hnd).1
  obtain ⟨s1, h1, h2⟩ := insertCards_ok communityCards [] [] (fun _ => Iff.rfl) hc
  simp only [List.nil_append] at h1 h2
  obtain ⟨s2, h3, -⟩ := insertCards_ok holeCards s1 communityCards h2 hnd
  simp only [makeCompleteHand, h1, h3]

theorem makeCompleteHand_dup (holeCards communityCards : List String)
    (hnd : ¬ (communityCards ++ holeCards).Nodup) :
    ∃ card ∈ communityCards ++ holeCards,
      makeCompleteHand holeCards communityCards
        = .error (.invalidArgument ("Duplicate card found: " ++ card)) := by
  by_cases hc : communityCards.Nodup
  · have hc1 : ([] ++ communityCards).Nodup := by simpa using hc
    obtain ⟨s1, h1, h2⟩ := insertCards_ok communityCards [] [] (fun _ => Iff.rfl) hc1
    simp only [List.nil_append] at h1 h2
    obtain ⟨card, hmem, herr⟩ := insertCards_error holeCards s1 communityCards h2 hc hnd
    exact ⟨card, List.mem_append_right _ hmem, by simp only [makeCompleteHand, h1, herr]⟩
  · have hc1 : ¬ ([] ++ communityCards).Nodup := by simpa using hc
    obtain ⟨card, hmem, herr⟩ :=
      insertCards_error communityCards [] [] (fun _ => Iff.rfl) List.nodup_nil hc1
    exact ⟨card, List.mem_append_left _ hmem, by simp only [makeCompleteHand, herr]⟩

theorem not_nodup_iff_positions (l : List String) :
    ¬ l.Nodup ↔ ∃ i j, i < j ∧ j < l.length ∧ l[i]? = l[j]? := by
  rw [List.nodup_iff_getElem?_ne_getElem?]
  push_neg
  rfl

/-! # Lemmas on the selection loop -/

theorem visitedMasks_initial : visitedMasks 21 initialSelect = (fiveOfSeven, true) := by
  decide

theorem visitedMasks_twenty : (visitedMasks 20 initialSelect).2 = false := by
  decide

theorem exists_seven (hand : List String) (h : 7 ≤ hand.length) :
    ∃ a b c d e f g rest, hand = a :: b :: c :: d :: e :: f :: g :: rest := by
  match hand, h with
  | a :: b :: c :: d :: e :: f :: g :: rest, _ => exact ⟨a, b, c, d, e, f, g, rest, rfl⟩

theorem exists_five (hand : List String) (h : hand.length = 5) :
    ∃ a b c d e, hand = [a, b, c, d, e] := by
  match hand, h with
  | [a, b, c, d, e], _ => exact ⟨a, b, c, d, e, rfl⟩

/-- For each of the 21 masks the inner loop overwrites all five slots of
`currentHand` with the selected cards, reading only the first seven cards. -/
theorem gatherLoop_fiveOfSeven (mask : List Bool) (hm : mask ∈ fiveOfSeven)
    (hand current : List String) (hh : 7 ≤ hand.length) (hc : current.length = 5) :
    gatherLoop mask hand 7 0 0 current = .ok (pickMask mask hand) ∧
      (pickMask mask hand).length = 5 ∧ (pickMask mask hand).Sublist (hand.take 7) := by
  obtain ⟨a, b, c, d, e, f, g, rest, rfl⟩ := exists_seven hand hh
  obtain ⟨v, w, x, y, z, rfl⟩ := exists_five current hc
  simp only [fiveOfSeven, List.mem_cons, List.mem_singleton, List.not_mem_nil, or_false] at hm
  rcases hm with h | h | h | h | h | h | h | h | h | h | h | h | h | h | h | h | h | h | h |
    h | h <;> subst h <;>
    simp [gatherLoop, pickMask]

theorem Hands.le_iff (a b : Hands) : a ≤ b ↔ a.toNat ≤ b.toNat := Iff.rfl

theorem Hands.lt_iff (a b : Hands) : a < b ↔ a.toNat < b.toNat := Iff.rfl

theorem categoryOf_of_ok {hand : List String} {c : Hands} (h : evaluateHand hand = .ok c) :
    categoryOf hand = c := by
  simp only [categoryOf, h]

theorem mem_visitedMasks_succ (n : Nat) (select : List Bool) :
    select ∈ (visitedMasks (n + 1) select).1 := by
  simp only [visitedMasks]
  split <;> simp

/-- The do-while loop computes the fold of the comparison over the hands
picked by the masks it visits, when these are among the 21 masks and the 21
hands are classified without an exception. -/
theorem selectLoop_eq (compareSameHands : List String → List String → Int)
    (hand : List String) (hh : 7 ≤ hand.length)
    (hval : ∀ m ∈ fiveOfSeven, ∃ c, evaluateHand (pickMask m hand) = .ok c) (n : Nat) :
    ∀ (select : List Bool) (current best : List String) (bestRank : Hands),
      (∀ m ∈ (visitedMasks n select).1, m ∈ fiveOfSeven) → current.length = 5 →
      evaluateHand best = .ok bestRank →
      selectLoop compareSameHands hand n select current best bestRank =
        if (visitedMasks n select).2 then
          some (.ok (selectFold compareSameHands best
            ((visitedMasks n select).1.map (fun m => pickMask m hand))))
        else none := by
  induction n with
  | zero => intro select current best bestRank _ _ _; rfl
  | succ n ih =>
    intro select current best bestRank hvis hcur hbest
    have hsel : select ∈ fiveOfSeven := hvis select (mem_visitedMasks_succ n select)
    obtain ⟨hg, hlen, -⟩ := gatherLoop_fiveOfSeven select hsel hand current hh hcur
    obtain ⟨c, hc⟩ := hval select hsel
    have hcat1 : categoryOf (pickMask select hand) = c := categoryOf_of_ok hc
    have hcat2 : categoryOf best = bestRank := categoryOf_of_ok hbest
    have hbeats : (decide (c > bestRank) ||
        (decide (c = bestRank) &&
          decide (compareSameHands (pickMask select hand) best = 1)))
        = beats compareSameHands (pickMask select hand) best := by
      simp only [beats, hcat1, hcat2]
    rw [selectLoop]
    simp only [hg, hc, hbeats]
    cases hp : (prevPermutation select).2
    · simp only [visitedMasks, hp, Bool.false_eq_true, if_false, if_true, List.map_cons,
        List.map_nil, selectFold]
    · have hvis1 : ∀ m ∈ (visitedMasks n (prevPermutation select).1).1, m ∈ fiveOfSeven := by
        intro m hm
        apply hvis
        simp only [visitedMasks, hp, if_true]
        exact List.mem_cons_of_mem _ hm
      have hbest1 : evaluateHand
          (if beats compareSameHands (pickMask select hand) best = true
            then pickMask select hand else best)
          = .ok (if beats compareSameHands (pickMask select hand) best = true
            then c else bestRank) := by
        cases beats compareSameHands (pickMask select hand) best
        · simpa using hbest
        · simpa using hc
      have := ih (prevPermutation select).1 (pickMask select hand) _ _ hvis1 hlen hbest1
      simp only [if_true, this, visitedMasks, hp, List.map_cons, selectFold]

theorem selectFold_mem (compareSameHands : List String → List String → Int)
    (candidates : List (List String)) :
    ∀ best, selectFold compareSameHands best candidates ∈ best :: candidates := by
  induction candidates with
  | nil => intro best; simp [selectFold]
  | cons cand rest ih =>
    intro best
    rw [selectFold]
    have := ih (if beats compareSameHands cand best then cand else best)
    rcases List.mem_cons.mp this with h | h
    · rw [h]
      split
      · exact List.mem_cons_of_mem _ (List.mem_cons_self _ _)
      · exact List.mem_cons_self _ _
    · exact List.mem_cons_of_mem _ (List.mem_cons_of_mem _ h)

theorem category_le_step (compareSameHands : List String → List String → Int)
    (cand best : List String) :
    categoryOf best ≤ categoryOf (if beats compareSameHands cand best then cand else best) ∧
    categoryOf cand ≤ categoryOf (if beats compareSameHands cand best then cand else best) := by
  by_cases hb : beats compareSameHands cand best = true
  · rw [if_pos hb]
    simp only [beats, Bool.or_eq_true, Bool.and_eq_true, decide_eq_true_eq] at hb
    refine ⟨?_, Nat.le_refl _⟩
    rcases hb with h | ⟨h, -⟩
    · exact Nat.le_of_lt h
    · rw [h]
      exact Nat.le_refl _
  · rw [if_neg hb]
    simp only [beats, Bool.or_eq_true, Bool.and_eq_true, decide_eq_true_eq, not_or] at hb
    refine ⟨Nat.le_refl _, ?_⟩
    exact Nat.le_of_not_lt hb.1

/-- The fold ends on a hand whose category is not below that of the initial
best nor of any candidate. -/
theorem selectFold_max (compareSameHands : List String → List String → Int)
    (candidates : List (List String)) :
    ∀ best, ∀ x ∈ best :: candidates,
      categoryOf x ≤ categoryOf (selectFold compareSameHands best candidates) := by
  induction candidates with
  | nil =>
    intro best x hx
    simp only [List.mem_singleton] at hx
    rw [hx, selectFold]
    exact Nat.le_refl _
  | cons cand rest ih =>
    intro best x hx
    rw [selectFold]
    have hstep := category_le_step compareSameHands cand best
    have hnew := ih (if beats compareSameHands cand best then cand else best)
    have hself := hnew _ (List.mem_cons_self _ _)
    rcases List.mem_cons.mp hx with h | h
    · rw [h]
      exact Nat.le_trans hstep.1 hself
    · rcases List.mem_cons.mp h with h | h
      · rw [h]
        exact Nat.le_trans hstep.2 hself
      · exact hnew x (List.mem_cons_of_mem _ h)

theorem visitedMasks_succ_of_done (n : Nat) :
    ∀ select, (visitedMasks n select).2 = true →
      visitedMasks (n + 1) select = visitedMasks n select := by
  induction n with
  | zero => intro select h; simp [visitedMasks] at h
  | succ n ih =>
    intro select h
    rw [visitedMasks] at h
    rw [visitedMasks]
    conv_rhs => rw [visitedMasks]
    cases hp : (prevPermutation select).2
    · simp only [hp, Bool.false_eq_true, if_false]
    · simp only [hp, if_true] at h
      simp only [hp, if_true, ih _ h]

theorem visitedMasks_of_le (fuel : Nat) (hf : 21 ≤ fuel) :
    visitedMasks fuel initialSelect = (fiveOfSeven, true) := by
  induction fuel, hf using Nat.le_induction with
  | base => exact visitedMasks_initial
  | succ n _ ih =>
    rw [visitedMasks_succ_of_done n initialSelect (by rw [ih]), ih]

theorem visitedMasks_of_lt (fuel : Nat) (hf : fuel < 21) :
    (visitedMasks fuel initialSelect).2 = false ∧
      ∀ m ∈ (visitedMasks fuel initialSelect).1, m ∈ fiveOfSeven := by
  interval_cases fuel <;> decide

theorem mask_mem_fiveOfSeven (mask : List Bool) (hl : mask.length = 7)
    (hc : mask.count true = 5) : mask ∈ fiveOfSeven := by
  match mask, hl with
  | [b0, b1, b2, b3, b4, b5, b6], _ =>
    revert hc
    cases b0 <;> cases b1 <;> cases b2 <;> cases b3 <;> cases b4 <;> cases b5 <;> cases b6 <;>
      decide

theorem fiveOfSeven_spec (mask : List Bool) :
    mask ∈ fiveOfSeven ↔ mask.length = 7 ∧ mask.count true = 5 := by
  constructor
  · intro h
    simp only [fiveOfSeven, List.mem_cons, List.mem_singleton, List.not_mem_nil, or_false] at h
    rcases h with h | h | h | h | h | h | h | h | h | h | h | h | h | h | h | h | h | h | h |
      h | h <;> subst h <;> decide
  · rintro ⟨h1, h2⟩
    exact mask_mem_fiveOfSeven mask h1 h2

/-- A sub-selection of a hand is the hand picked by a mask of the hand's length
that has as many flags set as the sub-selection has cards. -/
theorem sublist_eq_pickMask {s hand : List String} (h : s.Sublist hand) :
    ∃ mask, mask.length = hand.length ∧ mask.count true = s.length ∧ s = pickMask mask hand := by
  induction h with
  | slnil => exact ⟨[], rfl, rfl, rfl⟩
  | cons a _ ih =>
    obtain ⟨m, h1, h2, h3⟩ := ih
    exact ⟨false :: m, by simp [h1], by simp [h2], by simp [pickMask, ← h3]⟩
  | cons₂ a _ ih =>
    obtain ⟨m, h1, h2, h3⟩ := ih
    exact ⟨true :: m, by simp [h1], by simp [h2], by simp [pickMask, ← h3]⟩

theorem pickMask_sublist (mask : List Bool) :
    ∀ hand : List String, (pickMask mask hand).Sublist hand := by
  induction mask with
  | nil => intro hand; simp [pickMask]
  | cons b mask ih =>
    intro hand
    cases hand with
    | nil => cases b <;> simp [pickMask]
    | cons c rest =>
      cases b
      · simp only [pickMask]
        exact (ih rest).cons c
      · simp only [pickMask]
        exact (ih rest).cons₂ c

theorem pickMask_initial (hand : List String) (hh : 5 ≤ hand.length) :
    pickMask initialSelect hand = hand.take 5 := by
  match hand, hh with
  | [a, b, c, d, e], _ => rfl
  | [a, b, c, d, e, f], _ => rfl
  | a :: b :: c :: d :: e :: f :: g :: rest, _ => rfl

theorem pickMask_take (mask : List Bool) (hm : mask ∈ fiveOfSeven) (hand : List String) :
    pickMask mask (hand.take 7) = pickMask mask hand := by
  have hl := ((fiveOfSeven_spec mask).mp hm).1
  match mask, hl with
  | [b0, b1, b2, b3, b4, b5, b6], _ =>
    match hand with
    | [] => rfl
    | [a] => rfl
    | [a, b] => rfl
    | [a, b, c] => rfl
    | [a, b, c, d] => rfl
    | [a, b, c, d, e] => rfl
    | [a, b, c, d, e, f] => rfl
    | a :: b :: c :: d :: e :: f :: g :: rest =>
      cases b0 <;> cases b1 <;> cases b2 <;> cases b3 <;> cases b4 <;> cases b5 <;>
        cases b6 <;> rfl

/-- Every selected hand of a hand whose first seven tokens are valid is
classified without an exception. -/
theorem picked_evaluates (hand : List String) (hv : ∀ t ∈ hand.take 7, ValidToken t)
    (mask : List Bool) (hm : mask ∈ fiveOfSeven) :
    ∃ c, evaluateHand (pickMask mask hand) = .ok c := by
  apply evaluateHand_valid
  intro t ht
  rw [← pickMask_take mask hm] at ht
  exact hv t ((pickMask_sublist mask (hand.take 7)).subset ht)

/-- With at least seven cards, the first seven of them valid tokens, the
function returns the fold over the 21 selected hands when given fuel for 21
iterations, and has not returned within fewer. -/
theorem findBestFiveCardHand_eq (compareSameHands : List String → List String → Int)
    (fuel : Nat) (hand : List String) (hh : 7 ≤ hand.length)
    (hv : ∀ t ∈ hand.take 7, ValidToken t) :
    findBestFiveCardHand compareSameHands fuel hand =
      if 21 ≤ fuel then
        some (.ok (selectFold compareSameHands (hand.take 5)
          (fiveOfSeven.map (fun m => pickMask m hand))))
      else none := by
  have hval := picked_evaluates hand hv
  have h5 : ¬ hand.length < 5 := by omega
  have hinit : pickMask initialSelect hand = hand.take 5 := pickMask_initial hand (by omega)
  obtain ⟨c0, hc0⟩ := hval initialSelect (by decide)
  rw [hinit] at hc0
  rw [findBestFiveCardHand, if_neg h5]
  simp only [hc0]
  by_cases hf : 21 ≤ fuel
  · rw [selectLoop_eq compareSameHands hand hh hval fuel initialSelect _ _ c0
      (by rw [visitedMasks_of_le fuel hf]; exact fun m hm => hm) (by simp) hc0]
    rw [visitedMasks_of_le fuel hf, if_pos hf]
    simp
  · have hlt := visitedMasks_of_lt fuel (by omega)
    rw [selectLoop_eq compareSameHands hand hh hval fuel initialSelect _ _ c0 hlt.2 (by simp)
      hc0]
    rw [hlt.1, if_neg hf]
    simp

theorem gatherLoop_take (select : List Bool) (hand : List String) (n : Nat) :
    ∀ (i index : Nat) (current : List String), i + n ≤ 7 →
      gatherLoop select (hand.take 7) n i index current
        = gatherLoop select hand n i index current := by
  induction n with
  | zero => intro i index current _; rfl
  | succ n ih =>
    intro i index current hi
    have hget : (hand.take 7)[i]? = hand[i]? := by
      rw [List.getElem?_take, if_pos (by omega)]
    rw [gatherLoop, gatherLoop, hget]
    cases select.getD i false
    · simp only [Bool.false_eq_true, if_false]
      exact ih (i + 1) index current (by omega)
    · simp only [if_true]
      cases hand[i]? with
      | none => rfl
      | some card =>
        simp only
        split
        · exact ih (i + 1) (index + 1) _ (by omega)
        · rfl

/-- The loop reads the hand only through its first seven cards. -/
theorem selectLoop_take (compareSameHands : List String → List String → Int)
    (hand : List String) (fuel : Nat) :
    ∀ (select : List Bool) (current best : List String) (bestRank : Hands),
      selectLoop compareSameHands (hand.take 7) fuel select current best bestRank
        = selectLoop compareSameHands hand fuel select current best bestRank := by
  induction fuel with
  | zero => intro select current best bestRank; rfl
  | succ n ih =>
    intro select current best bestRank
    rw [selectLoop, selectLoop, gatherLoop_take select hand 7 0 0 current (by omega)]
    cases gatherLoop select hand 7 0 0 current with
    | error e => rfl
    | ok cur =>
      simp only
      cases evaluateHand cur with
      | error e => rfl
      | ok rank =>
        simp only
        split
        · exact ih _ _ _ _
        · rfl

theorem findBestFiveCardHand_take (compareSameHands : List String → List String → Int)
    (fuel : Nat) (hand : List String) (hh : 7 ≤ hand.length) :
    findBestFiveCardHand compareSameHands fuel (hand.take 7)
      = findBestFiveCardHand compareSameHands fuel hand := by
  have h5 : ¬ hand.length < 5 := by omega
  have h5t : ¬ (hand.take 7).length < 5 := by
    rw [List.length_take]
    omega
  have htake : (hand.take 7).take 5 = hand.take 5 := by
    rw [List.take_take]
    rfl
  rw [findBestFiveCardHand, findBestFiveCardHand, if_neg h5, if_neg h5t, htake]
  simp only [selectLoop_take]

/-- The hand picked by one of the 21 masks from seven cards consists of the
cards at five increasing positions. -/
theorem pickMask_positions (mask : List Bool) (hm : mask ∈ fiveOfSeven) (hand : List String)
    (hh : hand.length = 7) :
    (maskPositions mask 0).length = 5 ∧ (maskPositions mask 0).Pairwise (· < ·) ∧
      (∀ p ∈ maskPositions mask 0, p < 7) ∧
      (pickMask mask hand).map some = (maskPositions mask 0).map (fun p => hand[p]?) := by
  obtain ⟨a, b, c, d, e, f, g, rest, rfl⟩ := exists_seven hand (by omega)
  have hrest : rest = [] := by
    cases rest with
    | nil => rfl
    | cons x xs => simp at hh
  subst hrest
  simp only [fiveOfSeven, List.mem_cons, List.mem_singleton, List.not_mem_nil, or_false] at hm
  rcases hm with h | h | h | h | h | h | h | h | h | h | h | h | h | h | h | h | h | h | h |
    h | h <;> subst h <;> simp [maskPositions, pickMask]

/-- The result of the fold over the 21 selected hands is one of them. -/
theorem selectFold_picked (compareSameHands : List String → List String → Int)
    (hand : List String) (hh : 5 ≤ hand.length) :
    ∃ mask ∈ fiveOfSeven,
      selectFold compareSameHands (hand.take 5) (fiveOfSeven.map (fun m => pickMask m hand))
        = pickMask mask hand := by
  have hmem := selectFold_mem compareSameHands (fiveOfSeven.map (fun m => pickMask m hand))
    (hand.take 5)
  rcases List.mem_cons.mp hmem with h | h
  · exact ⟨initialSelect, by decide, by rw [h, pickMask_initial hand hh]⟩
  · obtain ⟨m, hm, hpick⟩ := List.mem_map.mp h
    exact ⟨m, hm, hpick.symm⟩

/-! # Lemmas on the map of counts -/

theorem mapModify_key {κ ν : Type} [LinearOrder κ] (d : ν) (f : ν → ν) (k : κ)
    (m : List (κ × ν)) :
    ∀ p ∈ mapModify d f k m, p.1 = k ∨ ∃ q ∈ m, q.1 = p.1 := by
  induction m with
  | nil =>
    intro p hp
    simp only [mapModify, List.mem_singleton] at hp
    exact Or.inl (by rw [hp])
  | cons head rest ih =>
    obtain ⟨k1, v⟩ := head
    intro p hp
    rw [mapModify] at hp
    split at hp
    · rcases List.mem_cons.mp hp with h | h
      · exact Or.inl (by rw [h])
      · exact Or.inr ⟨p, h, rfl⟩
    · split at hp
      · rcases List.mem_cons.mp hp with h | h
        · exact Or.inr ⟨(k1, v), List.mem_cons_self _ _, by rw [h]⟩
        · exact Or.inr ⟨p, List.mem_cons_of_mem _ h, rfl⟩
      · rcases List.mem_cons.mp hp with h | h
        · exact Or.inr ⟨(k1, v), List.mem_cons_self _ _, by rw [h]⟩
        · rcases ih p h with h1 | ⟨q, hq, hq1⟩
          · exact Or.inl h1
          · exact Or.inr ⟨q, List.mem_cons_of_mem _ hq, hq1⟩

/-- The update keeps the entries in strictly ascending key order. -/
theorem mapModify_sorted {κ ν : Type} [LinearOrder κ] (d : ν) (f : ν → ν) (k : κ)
    (m : List (κ × ν)) (hs : m.Pairwise (fun a b => a.1 < b.1)) :
    (mapModify d f k m).Pairwise (fun a b => a.1 < b.1) := by
  induction m with
  | nil => simp [mapModify]
  | cons head rest ih =>
    obtain ⟨k1, v⟩ := head
    have hhead := (List.pairwise_cons.mp hs).1
    have hrest := (List.pairwise_cons.mp hs).2
    rw [mapModify]
    split
    · rename_i hlt
      refine List.pairwise_cons.mpr ⟨?_, hs⟩
      intro p hp
      rcases List.mem_cons.mp hp with h | h
      · rw [h]; exact hlt
      · exact lt_trans hlt (hhead p h)
    · split
      · exact List.pairwise_cons.mpr ⟨hhead, hrest⟩
      · rename_i hnlt hne
        refine List.pairwise_cons.mpr ⟨?_, ih hrest⟩
        intro p hp
        rcases mapModify_key d f k rest p hp with h | ⟨q, hq, hq1⟩
        · rw [h]
          exact lt_of_le_of_ne (not_lt.mp hnlt) (fun h1 => hne h1.symm)
        · rw [← hq1]
          exact hhead q hq

theorem mapFind_eq_none {κ ν : Type} [LinearOrder κ] [DecidableEq κ] (k : κ)
    (m : List (κ × ν))
    (h : ∀ p ∈ m, p.1 ≠ k) : mapFind k m = none := by
  induction m with
  | nil => rfl
  | cons head rest ih =>
    obtain ⟨k1, v⟩ := head
    have h1 : k ≠ k1 := fun e => h (k1, v) (List.mem_cons_self _ _) e.symm
    rw [mapFind, if_neg h1]
    exact ih (fun p hp => h p (List.mem_cons_of_mem _ hp))

/-- Reading a map after an update. -/
theorem mapFind_mapModify {κ ν : Type} [LinearOrder κ] [DecidableEq κ] (d : ν) (f : ν → ν)
    (k x : κ)
    (m : List (κ × ν)) (hs : m.Pairwise (fun a b => a.1 < b.1)) :
    mapFind x (mapModify d f k m)
      = if x = k then some (f ((mapFind k m).getD d)) else mapFind x m := by
  induction m with
  | nil =>
    simp only [mapModify, mapFind]
    split <;> rfl
  | cons head rest ih =>
    obtain ⟨k1, v⟩ := head
    have hhead := (List.pairwise_cons.mp hs).1
    have hrest := (List.pairwise_cons.mp hs).2
    rw [mapModify]
    split
    · rename_i hlt
      have hnone : mapFind k ((k1, v) :: rest) = none := by
        apply mapFind_eq_none
        intro p hp
        rcases List.mem_cons.mp hp with h | h
        · rw [h]; exact ne_of_gt hlt
        · exact ne_of_gt (lt_trans hlt (hhead p h))
      rw [hnone]
      by_cases hx : x = k
      · simp only [mapFind, hx, if_true, Option.getD_none]
      · conv_lhs => rw [mapFind]
        simp only [hx, if_false]
    · split
      · rename_i hnlt heq
        subst heq
        by_cases hx : x = k
        · simp only [mapFind, hx, if_true, Option.getD_some]
        · simp only [mapFind, hx, if_false]
      · rename_i hnlt hne
        by_cases hx : x = k
        · subst hx
          simp only [mapFind, hne, if_false, if_true]
          rw [ih hrest, if_pos rfl]
        · by_cases hx1 : x = k1
          · simp only [mapFind, hx1, if_true]
            rw [if_neg (fun e => hne e.symm)]
          · simp only [mapFind, hx1, if_false, hx]
            rw [ih hrest, if_neg hx]

theorem mem_iff_mapFind {κ ν : Type} [LinearOrder κ] [DecidableEq κ] (k : κ) (v : ν)
    (m : List (κ × ν))
    (hs : m.Pairwise (fun a b => a.1 < b.1)) :
    (k, v) ∈ m ↔ mapFind k m = some v := by
  induction m with
  | nil => simp [mapFind]
  | cons head rest ih =>
    obtain ⟨k1, v1⟩ := head
    have hhead := (List.pairwise_cons.mp hs).1
    have hrest := (List.pairwise_cons.mp hs).2
    rw [mapFind]
    by_cases hk : k = k1
    · subst hk
      rw [if_pos rfl]
      constructor
      · intro h
        rcases List.mem_cons.mp h with h | h
        · rw [(Prod.mk.inj h).2]
        · exact absurd (hhead _ h) (lt_irrefl k)
      · intro h
        rw [Option.some.inj h]
        exact List.mem_cons_self _ _
    · rw [if_neg hk, ← ih hrest]
      constructor
      · intro h
        rcases List.mem_cons.mp h with h | h
        · exact absurd (Prod.mk.inj h).1 hk
        · exact h
      · exact List.mem_cons_of_mem _

theorem countOccurrences_append {κ : Type} [LinearOrder κ] (xs : List κ) (x : κ) :
    countOccurrences (xs ++ [x]) = mapModify 0 (· + 1) x (countOccurrences xs) := by
  simp only [countOccurrences, List.foldl_append, List.foldl_cons, List.foldl_nil]

/-- The map of counts is in ascending key order and stores under every element
of the list the number of its occurrences, and nothing else. -/
theorem countOccurrences_spec {κ : Type} [LinearOrder κ] (xs : List κ) :
    (countOccurrences xs).Pairwise (fun a b => a.1 < b.1) ∧
      ∀ k, mapFind k (countOccurrences xs) = if k ∈ xs then some (xs.count k) else none := by
  induction xs using List.reverseRecOn with
  | nil => exact ⟨List.Pairwise.nil, fun k => by simp [countOccurrences, mapFind]⟩
  | append_singleton xs x ih =>
    obtain ⟨hs, hf⟩ := ih
    rw [countOccurrences_append]
    refine ⟨mapModify_sorted _ _ _ _ hs, ?_⟩
    intro k
    rw [mapFind_mapModify _ _ _ _ _ hs, hf x, hf k]
    by_cases hk : k = x
    · subst hk
      by_cases hmem : k ∈ xs
      · simp [hmem]
      · simp [hmem, List.count_eq_zero_of_not_mem hmem]
    · have hne : (x == k) = false := by simpa using fun e => hk e.symm
      by_cases hmem : k ∈ xs
      · simp [hk, hmem, List.count_append, List.count_cons, hne]
      · simp [hk, hmem]

theorem mem_countOccurrences {κ : Type} [LinearOrder κ] (xs : List κ) (k : κ) (v : Nat) :
    (k, v) ∈ countOccurrences xs ↔ k ∈ xs ∧ v = xs.count k := by
  obtain ⟨hs, hf⟩ := countOccurrences_spec xs
  rw [mem_iff_mapFind k v _ hs, hf k]
  by_cases hmem : k ∈ xs
  · simp only [hmem, if_true, true_and, Option.some.injEq]
    exact eq_comm
  · simp [hmem]

/-! # Lemmas on the full house -/

theorem fullHouseOfCounts_iff (ranks : List Int) :
    fullHouseOfCounts (countOccurrences ranks) = true ↔
      ∃ r1 r2 : Int, r1 ≠ r2 ∧ 3 ≤ ranks.count r1 ∧ 2 ≤ ranks.count r2 := by
  constructor
  · intro h
    simp only [fullHouseOfCounts, Bool.and_eq_true, Option.isSome_iff_exists] at h
    obtain ⟨⟨c, hc⟩, hpair⟩ := h
    rw [hc] at hpair
    have hc3 : 3 ≤ c.2 := by simpa using List.find?_some hc
    have hcm : (c.1, c.2) ∈ countOccurrences ranks := List.mem_of_find?_eq_some hc
    obtain ⟨p, hp, hp1⟩ := List.any_eq_true.mp hpair
    simp only [Bool.and_eq_true, decide_eq_true_eq] at hp1
    have hpm : (p.1, p.2) ∈ countOccurrences ranks := hp
    rw [mem_countOccurrences] at hcm hpm
    exact ⟨c.1, p.1, fun e => hp1.1 e.symm, by rw [← hcm.2]; exact hc3,
      by rw [← hpm.2]; exact hp1.2⟩
  · rintro ⟨r1, r2, hne, h1, h2⟩
    have hm1 : (r1, ranks.count r1) ∈ countOccurrences ranks :=
      (mem_countOccurrences ranks r1 _).mpr ⟨List.count_pos_iff.mp (by omega), rfl⟩
    have hm2 : (r2, ranks.count r2) ∈ countOccurrences ranks :=
      (mem_countOccurrences ranks r2 _).mpr ⟨List.count_pos_iff.mp (by omega), rfl⟩
    cases hf : (countOccurrences ranks).find? (fun count => decide (count.2 ≥ 3)) with
    | none =>
      have := List.find?_eq_none.mp hf _ hm1
      simp only [ge_iff_le, decide_eq_true_eq] at this
      exact absurd h1 this
    | some c =>
      simp only [fullHouseOfCounts, hf, Option.isSome_some, Bool.true_and]
      apply List.any_eq_true.mpr
      by_cases hc : c.1 = r1
      · refine ⟨_, hm2, ?_⟩
        simp only [Bool.and_eq_true, decide_eq_true_eq]
        exact ⟨fun e => hne (hc ▸ e.symm), h2⟩
      · refine ⟨_, hm1, ?_⟩
        simp only [Bool.and_eq_true, decide_eq_true_eq]
        exact ⟨fun e => hc e.symm, by omega⟩

theorem count_add_count_le (l : List Int) (a b : Int) (h : a ≠ b) :
    l.count a + l.count b ≤ l.length := by
  induction l with
  | nil => simp
  | cons x xs ih =>
    simp only [List.count_cons, List.length_cons]
    by_cases ha : x = a
    · have hb : ¬ x = b := fun e => h (ha ▸ e)
      simp only [beq_iff_eq, ha, hb, if_true, if_false]
      have : ¬ a = b := h
      simp only [this, if_false]
      omega
    · by_cases hb : x = b
      · simp only [beq_iff_eq, ha, hb, if_true, if_false]
        have : ¬ b = a := fun e => h e.symm
        simp only [this, if_false]
        omega
      · simp only [beq_iff_eq, ha, hb, if_false]
        omega

/-! # Lemmas on the straight -/

theorem unique_length_le (l : List Int) : (unique l).length ≤ l.length := by
  induction l using unique.induct with
  | case1 => simp [unique]
  | case2 a => simp [unique]
  | case3 a rest ih =>
    rw [unique, if_pos rfl]
    simp only [List.length_cons] at ih ⊢
    omega
  | case4 a b rest hne ih =>
    rw [unique, if_neg hne]
    simp only [List.length_cons] at ih ⊢
    omega

/-- Nothing is removed from a vector without equal neighbours. -/
theorem unique_of_chain (l : List Int) (h : l.Chain' (· ≠ ·)) : unique l = l := by
  induction l using unique.induct with
  | case1 => rfl
  | case2 a => rfl
  | case3 a rest ih => exact absurd rfl (List.chain'_cons.mp h).1
  | case4 a b rest hne ih =>
    rw [unique, if_neg hne, ih (List.chain'_cons.mp h).2]

/-- Something is removed from a vector with two equal neighbours. -/
theorem unique_length_lt (l : List Int) (h : ¬ l.Chain' (· ≠ ·)) :
    (unique l).length < l.length := by
  induction l using unique.induct with
  | case1 => exact absurd List.chain'_nil h
  | case2 a => exact absurd (List.chain'_singleton a) h
  | case3 a rest ih =>
    rw [unique, if_pos rfl]
    have := unique_length_le (a :: rest)
    simp only [List.length_cons] at this ⊢
    omega
  | case4 a b rest hne ih =>
    rw [unique, if_neg hne]
    have hrest : ¬ (b :: rest).Chain' (· ≠ ·) := fun hc => h (List.chain'_cons.mpr ⟨hne, hc⟩)
    have := ih hrest
    simp only [List.length_cons] at this ⊢
    omega

theorem isSorted_of_sorted (l : List Int) (h : l.Sorted (· ≤ ·)) : isSorted l = true := by
  induction l using isSorted.induct with
  | case1 a b rest ih =>
    have h1 := List.pairwise_cons.mp h
    rw [isSorted, ih h1.2]
    simp [h1.1 b (List.mem_cons_self _ _)]
  | case2 l hne =>
    unfold isSorted
    split
    · rename_i a b rest
      exact absurd rfl (hne a b rest)
    · rfl

theorem sortInts_perm (l : List Int) : (sortInts l).Perm l :=
  List.perm_insertionSort _ l

theorem sortInts_sorted (l : List Int) : (sortInts l).Sorted (· ≤ ·) :=
  List.sorted_insertionSort _ l

theorem sortInts_length (l : List Int) : (sortInts l).length = l.length :=
  (sortInts_perm l).length_eq

/-- A sorted vector without two equal neighbours has no equal elements. -/
theorem nodup_of_sorted_chain (l : List Int) (hs : l.Sorted (· ≤ ·)) (hc : l.Chain' (· ≠ ·)) :
    l.Sorted (· < ·) := by
  induction l with
  | nil => exact List.Pairwise.nil
  | cons a rest ih =>
    have hs1 := List.pairwise_cons.mp hs
    cases rest with
    | nil => exact List.pairwise_singleton _ a
    | cons c rest1 =>
      have hc1 := List.chain'_cons.mp hc
      have hac : a < c := lt_of_le_of_ne (hs1.1 c (List.mem_cons_self _ _)) hc1.1
      have hs2 := List.pairwise_cons.mp hs1.2
      refine List.pairwise_cons.mpr ⟨?_, ih hs1.2 hc1.2⟩
      intro b hb
      rcases List.mem_cons.mp hb with h | h
      · rw [h]; exact hac
      · exact lt_of_lt_of_le hac (hs2.1 b h)

/-- With a repeated rank fewer ranks are left than cards. -/
theorem unique_sortInts_lt (l : List Int) (h : ¬ l.Nodup) :
    (unique (sortInts l)).length < l.length := by
  rw [← sortInts_length l]
  apply unique_length_lt
  intro hc
  have hlt := nodup_of_sorted_chain _ (sortInts_sorted l) hc
  have hnd : (sortInts l).Nodup := hlt.imp (fun h => ne_of_lt h)
  exact h ((sortInts_perm l).nodup_iff.mp hnd)

theorem unique_sortInts_of_nodup (l : List Int) (h : l.Nodup) :
    unique (sortInts l) = sortInts l := by
  apply unique_of_chain
  have hnd : (sortInts l).Nodup := (sortInts_perm l).nodup_iff.mpr h
  exact List.Pairwise.chain' hnd

theorem exists_five_ranks (l : List Int) (h : l.length = 5) :
    ∃ a b c d e, l = [a, b, c, d, e] := by
  match l, h with
  | [a, b, c, d, e], _ => exact ⟨a, b, c, d, e, rfl⟩

/-- The value of `isStraight` on five cards, in terms of their ranks: they are
pairwise distinct, and either the highest exceeds the lowest by four or they
are the ranks of the wheel. -/
theorem straightOfNumbers_five (ranks : List Int) (h5 : ranks.length = 5) :
    straightOfNumbers ranks = true ↔
      ranks.Nodup ∧
        ((∃ lo ∈ ranks, ∃ hi ∈ ranks, (∀ r ∈ ranks, lo ≤ r ∧ r ≤ hi) ∧ hi - lo = 4) ∨
          ∀ r, r ∈ ranks ↔ r ∈ [2, 3, 4, 5, 14]) := by
  by_cases hnd : ranks.Nodup
  · have hu := unique_sortInts_of_nodup ranks hnd
    have hperm := sortInts_perm ranks
    have hsorted := sortInts_sorted ranks
    have hlt := nodup_of_sorted_chain _ hsorted
      (List.Pairwise.chain' ((sortInts_perm ranks).nodup_iff.mpr hnd))
    obtain ⟨s0, s1, s2, s3, s4, hs⟩ :=
      exists_five_ranks (sortInts ranks) (by rw [sortInts_length, h5])
    rw [hs] at hu hperm hsorted hlt
    have hmem : ∀ r, r ∈ ranks ↔ r = s0 ∨ r = s1 ∨ r = s2 ∨ r = s3 ∨ r = s4 := by
      intro r
      rw [← hperm.mem_iff]
      simp
    simp only [List.Sorted, List.pairwise_cons, List.mem_cons, List.mem_singleton,
      List.not_mem_nil, or_false, forall_eq_or_imp, forall_eq, List.Pairwise.nil,
      and_true, IsEmpty.forall_iff, implies_true] at hlt
    obtain ⟨⟨h01, -, -, -⟩, ⟨h12, -, -⟩, ⟨h23, -⟩, h34⟩ := hlt
    have hval : straightOfNumbers ranks = true ↔
        (s4 - s0 = 4 ∨ (s0 = 2 ∧ s1 = 3 ∧ s2 = 4 ∧ s3 = 5 ∧ s4 = 14)) := by
      simp only [straightOfNumbers, hs, hu]
      simp [isSorted_of_sorted _ hsorted, and_assoc]
    rw [hval]
    constructor
    · intro h
      refine ⟨hnd, ?_⟩
      rcases h with h | ⟨e0, e1, e2, e3, e4⟩
      · left
        refine ⟨s0, (hmem s0).mpr (Or.inl rfl), s4,
          (hmem s4).mpr (Or.inr (Or.inr (Or.inr (Or.inr rfl)))), ?_, h⟩
        intro r hr
        rcases (hmem r).mp hr with e | e | e | e | e <;> subst e <;> omega
      · right
        intro r
        rw [hmem r, e0, e1, e2, e3, e4]
        simp
    · rintro ⟨-, h | h⟩
      · obtain ⟨lo, hlo, hi, hhi, hall, hdiff⟩ := h
        have b0 := hall s0 ((hmem s0).mpr (Or.inl rfl))
        have b4 := hall s4 ((hmem s4).mpr (Or.inr (Or.inr (Or.inr (Or.inr rfl)))))
        have hlo1 := (hmem lo).mp hlo
        have hhi1 := (hmem hi).mp hhi
        left
        omega
      · right
        have hnd2 : ([2, 3, 4, 5, 14] : List Int).Nodup := by decide
        have hp2 : ranks.Perm [2, 3, 4, 5, 14] :=
          (List.perm_ext_iff_of_nodup hnd hnd2).mpr h
        have hs2 : ([2, 3, 4, 5, 14] : List Int).Sorted (· ≤ ·) := by decide
        have heq := List.eq_of_perm_of_sorted (hperm.trans hp2) hsorted hs2
        simp only [List.cons.injEq, and_true] at heq
        exact heq
  · have hlt := unique_sortInts_lt ranks hnd
    rw [h5] at hlt
    constructor
    · intro h
      simp only [straightOfNumbers, hlt, if_true] at h
      exact absurd h (by decide)
    · rintro ⟨h, -⟩
      exact absurd h hnd

/-- Whatever the tokens, the loop has ended once the masks are used up: an
exception of `evaluateHand` only ends it earlier. -/
theorem selectLoop_ends (compareSameHands : List String → List String → Int)
    (hand : List String) (hh : 7 ≤ hand.length) (n : Nat) :
    ∀ (select : List Bool) (current best : List String) (bestRank : Hands),
      (∀ m ∈ (visitedMasks n select).1, m ∈ fiveOfSeven) → current.length = 5 →
      (visitedMasks n select).2 = true →
      selectLoop compareSameHands hand n select current best bestRank ≠ none := by
  induction n with
  | zero =>
    intro select current best bestRank _ _ hdone
    simp [visitedMasks] at hdone
  | succ n ih =>
    intro select current best bestRank hvis hcur hdone
    have hsel : select ∈ fiveOfSeven := hvis select (mem_visitedMasks_succ n select)
    obtain ⟨hg, hlen, -⟩ := gatherLoop_fiveOfSeven select hsel hand current hh hcur
    rw [selectLoop]
    simp only [hg]
    cases evaluateHand (pickMask select hand) with
    | error e => simp
    | ok c =>
      simp only
      cases hp : (prevPermutation select).2
      · simp
      · simp only [if_true]
        apply ih
        · intro m hm
          apply hvis
          simp only [visitedMasks, hp, if_true]
          exact List.mem_cons_of_mem _ hm
        · exact hlen
        · simpa only [visitedMasks, hp, if_true] using hdone

theorem findBestFiveCardHand_ends (compareSameHands : List String → List String → Int)
    (fuel : Nat) (hf : 21 ≤ fuel) (hand : List String) (hh : 7 ≤ hand.length) :
    findBestFiveCardHand compareSameHands fuel hand ≠ none := by
  have h5 : ¬ hand.length < 5 := by omega
  rw [findBestFiveCardHand, if_neg h5]
  simp only
  cases evaluateHand (hand.take 5) with
  | error e => simp
  | ok c =>
    simp only
    apply selectLoop_ends compareSameHands hand hh
    · rw [visitedMasks_of_le fuel hf]
      exact fun m hm => hm
    · simp
    · rw [visitedMasks_of_le fuel hf]

/-! # Lemmas on the counting detectors -/

/-- Some entry of the map of counts holds the count `n`, for a positive `n`,
exactly when some element occurs `n` times. -/
theorem any_count_iff (ranks : List Int) (n : Nat) (hn : 0 < n) :
    (countOccurrences ranks).any (fun count => count.2 == n) = true ↔
      ∃ r : Int, ranks.count r = n := by
  rw [List.any_eq_true]
  constructor
  · rintro ⟨p, hp, hpn⟩
    have hp1 : (p.1, p.2) ∈ countOccurrences ranks := hp
    rw [mem_countOccurrences] at hp1
    refine ⟨p.1, ?_⟩
    rw [← hp1.2]
    simpa using hpn
  · rintro ⟨r, hr⟩
    refine ⟨(r, n), ?_, by simp⟩
    rw [mem_countOccurrences]
    exact ⟨List.count_pos_iff.mp (by omega), hr.symm⟩

theorem detector_ok_true_iff {b : Bool} {p : Prop} (h : b = true ↔ p) :
    ((Except.ok b : Except Err Bool) = .ok true) ↔ p := by
  rw [← h]
  constructor
  · intro e
    exact Except.ok.inj e
  · intro e
    rw [e]

/-- A detector that converts the hand with `convertHandToNumbers` only throws
exactly when a token has a wrong length or a wrong rank character. -/
theorem numbers_error_iff (hand : List String) :
    (∃ e, convertHandToNumbers hand = .error e) ↔
      ∃ t ∈ hand, t.length ≠ 2 ∨ t.data.getD 0 ' ' ∉ rankChars := by
  constructor
  · rintro ⟨e, he⟩
    by_contra hcon
    push_neg at hcon
    rw [convertHandToNumbers_ok hand hcon] at he
    exact Except.noConfusion he
  · rintro ⟨t, ht, hbad⟩
    apply convertHandToNumbers_error
    refine ⟨t, ht, fun h => ?_⟩
    rcases hbad with h1 | h1
    · exact h1 h.1
    · exact h1 h.2

theorem suits_error_iff (hand : List String) :
    (∃ e, convertHandToSuits hand = .error e) ↔
      ∃ t ∈ hand, t.length ≠ 2 ∨ t.data.getD 1 ' ' ∉ suitChars := by
  constructor
  · rintro ⟨e, he⟩
    by_contra hcon
    push_neg at hcon
    rw [convertHandToSuits_ok hand hcon] at he
    exact Except.noConfusion he
  · rintro ⟨t, ht, hbad⟩
    apply convertHandToSuits_error
    refine ⟨t, ht, fun h => ?_⟩
    rcases hbad with h1 | h1
    · exact h1 h.1
    · exact h1 h.2

theorem error_iff_of_numbers (hand : List String) (f : List Int → Bool) :
    (∃ e, (match convertHandToNumbers hand with
        | .error e => (.error e : Except Err Bool)
        | .ok numbers => .ok (f numbers)) = .error e) ↔
      ∃ e, convertHandToNumbers hand = .error e := by
  cases convertHandToNumbers hand with
  | error e => simp
  | ok numbers => simp

theorem error_iff_of_both (hand : List String) (f : List Int → List Char → Bool) :
    (∃ e, (match convertHandToNumbers hand with
        | .error e => (.error e : Except Err Bool)
        | .ok numbers =>
          match convertHandToSuits hand with
          | .error e => .error e
          | .ok suits => .ok (f numbers suits)) = .error e) ↔
      (∃ e, convertHandToNumbers hand = .error e) ∨ ∃ e, convertHandToSuits hand = .error e := by
  cases convertHandToNumbers hand with
  | error e => simp
  | ok numbers =>
    cases convertHandToSuits hand with
    | error e => simp
    | ok suits => simp

/-! # Lemmas on the groups by suit and on the flush -/

theorem sortInts_eq_of_perm {l1 l2 : List Int} (h : l1.Perm l2) : sortInts l1 = sortInts l2 :=
  List.eq_of_perm_of_sorted (((sortInts_perm l1).trans h).trans (sortInts_perm l2).symm)
    (sortInts_sorted l1) (sortInts_sorted l2)

/-- Two maps in ascending key order that store the same values are equal. -/
theorem map_ext {κ ν : Type} [LinearOrder κ] (m1 m2 : List (κ × ν))
    (h1 : m1.Pairwise (fun a b => a.1 < b.1)) (h2 : m2.Pairwise (fun a b => a.1 < b.1))
    (h : ∀ k, mapFind k m1 = mapFind k m2) : m1 = m2 := by
  have hmem : ∀ p, p ∈ m1 ↔ p ∈ m2 := by
    intro p
    have e1 := mem_iff_mapFind p.1 p.2 m1 h1
    have e2 := mem_iff_mapFind p.1 p.2 m2 h2
    rw [h p.1] at e1
    exact e1.trans e2.symm
  have n1 : m1.Nodup := h1.imp (fun hab e => absurd (e ▸ hab) (lt_irrefl _))
  have n2 : m2.Nodup := h2.imp (fun hab e => absurd (e ▸ hab) (lt_irrefl _))
  have hperm : m1.Perm m2 := (List.perm_ext_iff_of_nodup n1 n2).mpr hmem
  haveI : IsAntisymm (κ × ν) (fun a b => a.1 < b.1) :=
    ⟨fun a b hab hba => absurd hab (lt_asymm hba)⟩
  exact List.eq_of_perm_of_sorted hperm h1 h2

/-- The map of counts depends on the multiset of the elements only. -/
theorem countOccurrences_perm {κ : Type} [LinearOrder κ] {l1 l2 : List κ} (h : l1.Perm l2) :
    countOccurrences l1 = countOccurrences l2 := by
  obtain ⟨s1, f1⟩ := countOccurrences_spec l1
  obtain ⟨s2, f2⟩ := countOccurrences_spec l2
  apply map_ext _ _ s1 s2
  intro k
  rw [f1 k, f2 k, h.count_eq k]
  by_cases hk : k ∈ l1
  · rw [if_pos hk, if_pos (h.mem_iff.mp hk)]
  · rw [if_neg hk, if_neg (fun hk2 => hk (h.mem_iff.mpr hk2))]

/-- The map of the groups is in ascending key order and stores under every
suit that occurs the numbers of the cards of that suit, in the order of the
cards. -/
theorem group_fold_spec (ps : List (Char × Int)) :
    (ps.foldl (fun m p => mapModify [] (· ++ [p.2]) p.1 m) []).Pairwise
        (fun a b => a.1 < b.1) ∧
      ∀ s, mapFind s (ps.foldl (fun m p => mapModify [] (· ++ [p.2]) p.1 m) [])
        = if s ∈ ps.map Prod.fst
          then some ((ps.filter (fun p => decide (p.1 = s))).map Prod.snd) else none := by
  induction ps using List.reverseRecOn with
  | nil => exact ⟨List.Pairwise.nil, fun s => by simp [mapFind]⟩
  | append_singleton ps p ih =>
    obtain ⟨hs, hf⟩ := ih
    rw [List.foldl_append, List.foldl_cons, List.foldl_nil]
    refine ⟨mapModify_sorted _ _ _ _ hs, ?_⟩
    intro s
    rw [mapFind_mapModify _ _ _ _ _ hs, hf p.1, hf s]
    by_cases hk : s = p.1
    · subst hk
      by_cases hmem : p.1 ∈ ps.map Prod.fst
      · simp [hmem, List.filter_append]
      · have hnone : ps.filter (fun q => decide (q.1 = p.1)) = [] := by
          rw [List.filter_eq_nil_iff]
          intro q hq
          simp only [decide_eq_true_eq]
          intro e
          exact hmem (List.mem_map.mpr ⟨q, hq, e⟩)
        simp [hmem, List.filter_append, hnone]
    · have hne : ¬ p.1 = s := fun e => hk e.symm
      by_cases hmem : s ∈ ps.map Prod.fst
      · simp [hk, hne, hmem, List.filter_append]
      · simp [hk, hne, hmem, List.filter_append]

theorem zip_suits_ranks (hand : List String) :
    (hand.map cardSuit).zip (hand.map cardRank) = hand.map (fun t => (cardSuit t, cardRank t)) := by
  induction hand with
  | nil => rfl
  | cons t rest ih => simp [ih]

theorem filter_pairs (hand : List String) (s : Char) :
    ((hand.map (fun t => (cardSuit t, cardRank t))).filter
      (fun p => decide (p.1 = s))).map Prod.snd
      = (hand.filter (fun t => decide (cardSuit t = s))).map cardRank := by
  induction hand with
  | nil => rfl
  | cons t rest ih =>
    by_cases h : cardSuit t = s
    · simp [List.filter_cons, h, ih]
    · simp [List.filter_cons, h, ih]

/-- The entries of the map of the groups of a hand: one for every suit that
occurs, with the ranks of the cards of that suit. -/
theorem mem_groupBySuit (hand : List String) (s : Char) (l : List Int) :
    (s, l) ∈ groupBySuit (hand.map cardSuit) (hand.map cardRank) ↔
      (∃ t ∈ hand, cardSuit t = s) ∧
        l = (hand.filter (fun t => decide (cardSuit t = s))).map cardRank := by
  obtain ⟨hs, hf⟩ := group_fold_spec ((hand.map cardSuit).zip (hand.map cardRank))
  rw [groupBySuit, mem_iff_mapFind s l _ hs, hf s, zip_suits_ranks]
  rw [filter_pairs hand s]
  have hmem : s ∈ (hand.map (fun t => (cardSuit t, cardRank t))).map Prod.fst ↔
      ∃ t ∈ hand, cardSuit t = s := by
    simp
  by_cases h : ∃ t ∈ hand, cardSuit t = s
  · rw [if_pos (hmem.mpr h)]
    simp only [Option.some.injEq, h, true_and]
    exact eq_comm
  · rw [if_neg (fun hh => h (hmem.mp hh))]
    simp [h]

/-- A test that fails on the empty vector holds for some group of the hand
exactly when it holds for the ranks of the cards of some suit. -/
theorem any_group_iff (hand : List String) (p : List Int → Bool) (hp : p [] = false) :
    (groupBySuit (hand.map cardSuit) (hand.map cardRank)).any (fun entry => p entry.2) = true ↔
      ∃ s : Char, p ((hand.filter (fun t => decide (cardSuit t = s))).map cardRank) = true := by
  rw [List.any_eq_true]
  constructor
  · rintro ⟨e, he, hpe⟩
    have he1 : (e.1, e.2) ∈ groupBySuit (hand.map cardSuit) (hand.map cardRank) := he
    rw [mem_groupBySuit] at he1
    exact ⟨e.1, by rw [← he1.2]; exact hpe⟩
  · rintro ⟨s, hps⟩
    refine ⟨(s, (hand.filter (fun t => decide (cardSuit t = s))).map cardRank), ?_, hps⟩
    rw [mem_groupBySuit]
    refine ⟨?_, rfl⟩
    by_contra hcon
    have hnil : hand.filter (fun t => decide (cardSuit t = s)) = [] := by
      rw [List.filter_eq_nil_iff]
      intro t ht
      simp only [decide_eq_true_eq]
      intro e
      exact hcon ⟨t, ht, e⟩
    rw [hnil, List.map_nil, hp] at hps
    exact absurd hps (by decide)

theorem suitHasRoyal_nil : suitHasRoyal [] = false := rfl

theorem suitHasStraight_nil : suitHasStraight [] = false := rfl

/-- The loop of `isFlush`, started on a map in key order, returns `true`
exactly when some suit still to come reaches five with what the map holds. -/
theorem flushLoop_iff (suits : List Char) :
    ∀ counts : List (Char × Nat), counts.Pairwise (fun a b => a.1 < b.1) →
      (flushLoop suits counts = true ↔
        ∃ s ∈ suits, 5 ≤ (mapFind s counts).getD 0 + suits.count s) := by
  induction suits with
  | nil => intro counts _; simp [flushLoop]
  | cons c rest ih =>
    intro counts hs
    have hs1 := mapModify_sorted 0 (· + 1) c counts hs
    have hfind : ∀ s, (mapFind s (mapModify 0 (· + 1) c counts)).getD 0
        = (mapFind s counts).getD 0 + (if s = c then 1 else 0) := by
      intro s
      rw [mapFind_mapModify _ _ _ _ _ hs]
      by_cases h : s = c
      · simp [h]
      · simp [h]
    rw [flushLoop]
    by_cases h5 : (mapFind c (mapModify 0 (· + 1) c counts)).getD 0 ≥ 5
    · rw [if_pos h5]
      simp only [true_iff]
      refine ⟨c, List.mem_cons_self _ _, ?_⟩
      rw [hfind c, if_pos rfl] at h5
      rw [List.count_cons_self]
      omega
    · rw [if_neg h5, ih _ hs1]
      rw [hfind c, if_pos rfl] at h5
      constructor
      · rintro ⟨s, hs2, hcount⟩
        refine ⟨s, List.mem_cons_of_mem _ hs2, ?_⟩
        rw [hfind s] at hcount
        rw [List.count_cons]
        by_cases e : s = c
        · subst e
          simpa [Nat.add_assoc, Nat.add_comm] using hcount
        · have e1 : (c == s) = false := by simpa using fun h => e h.symm
          simpa [e, e1] using hcount
      · rintro ⟨s, hs2, hcount⟩
        rw [List.count_cons] at hcount
        by_cases e : s = c
        · subst e
          simp only [beq_self_eq_true, if_true] at hcount
          have hin : s ∈ rest := by
            by_contra hnot
            rw [List.count_eq_zero_of_not_mem hnot] at hcount
            omega
          refine ⟨s, hin, ?_⟩
          rw [hfind s, if_pos rfl]
          omega
        · have e1 : (c == s) = false := by simpa using fun h => e h.symm
          simp only [e1, Bool.false_eq_true, if_false, Nat.add_zero] at hcount
          rcases List.mem_cons.mp hs2 with h | h
          · exact absurd h e
          · refine ⟨s, h, ?_⟩
            rw [hfind s, if_neg e]
            omega

/-- The value of `isFlush` on suits: some suit occurs at least five times. -/
theorem flushLoop_nil_iff (suits : List Char) :
    flushLoop suits [] = true ↔ ∃ s : Char, 5 ≤ suits.count s := by
  rw [flushLoop_iff suits [] List.Pairwise.nil]
  constructor
  · rintro ⟨s, -, h⟩
    exact ⟨s, by simpa [mapFind] using h⟩
  · rintro ⟨s, h⟩
    refine ⟨s, List.count_pos_iff.mp (by omega), by simpa [mapFind] using h⟩

/-! # Lemmas on rearranged hands -/

theorem suitHasRoyal_perm {l1 l2 : List Int} (h : l1.Perm l2) :
    suitHasRoyal l1 = suitHasRoyal l2 := by
  simp only [suitHasRoyal, sortInts_eq_of_perm h]

theorem suitHasStraight_perm {l1 l2 : List Int} (h : l1.Perm l2) :
    suitHasStraight l1 = suitHasStraight l2 := by
  simp only [suitHasStraight, sortInts_eq_of_perm h, h.length_eq]

theorem straightOfNumbers_perm {l1 l2 : List Int} (h : l1.Perm l2) :
    straightOfNumbers l1 = straightOfNumbers l2 := by
  simp only [straightOfNumbers, sortInts_eq_of_perm h]

theorem flushLoop_perm {l1 l2 : List Char} (h : l1.Perm l2) :
    flushLoop l1 [] = flushLoop l2 [] := by
  rw [Bool.eq_iff_iff, flushLoop_nil_iff, flushLoop_nil_iff]
  constructor
  · rintro ⟨s, hs⟩
    exact ⟨s, by rw [← h.count_eq]; exact hs⟩
  · rintro ⟨s, hs⟩
    exact ⟨s, by rw [h.count_eq]; exact hs⟩

/-- A test on the ranks of one suit that does not depend on their order gives
the same answer on the groups of a rearranged hand. -/
theorem any_group_perm {h1 h2 : List String} (hp : h1.Perm h2) (p : List Int → Bool)
    (hnil : p [] = false) (hperm : ∀ l1 l2 : List Int, l1.Perm l2 → p l1 = p l2) :
    (groupBySuit (h1.map cardSuit) (h1.map cardRank)).any (fun entry => p entry.2)
      = (groupBySuit (h2.map cardSuit) (h2.map cardRank)).any (fun entry => p entry.2) := by
  rw [Bool.eq_iff_iff, any_group_iff h1 p hnil, any_group_iff h2 p hnil]
  have hfilter : ∀ s : Char,
      p ((h1.filter (fun t => decide (cardSuit t = s))).map cardRank)
        = p ((h2.filter (fun t => decide (cardSuit t = s))).map cardRank) :=
    fun s => hperm _ _ ((hp.filter _).map cardRank)
  constructor
  · rintro ⟨s, hs⟩
    exact ⟨s, by rw [← hfilter s]; exact hs⟩
  · rintro ⟨s, hs⟩
    exact ⟨s, by rw [hfilter s]; exact hs⟩

/-! # Lemmas on hands of five cards -/

theorem suitHasRoyal_small (l : List Int) (h : l.length < 5) : suitHasRoyal l = false := by
  have hlen := sortInts_length l
  unfold suitHasRoyal
  split
  · rename_i a b c d e rest heq
    rw [heq] at hlen
    simp only [List.length_cons] at hlen
    omega
  · rfl

theorem suitHasStraight_small (l : List Int) (h : l.length < 5) : suitHasStraight l = false := by
  simp only [suitHasStraight, h, if_true]

theorem count_suit_five (hand : List String) (hlen : hand.length = 5) (s : Char) :
    5 ≤ (hand.map cardSuit).count s ↔ ∀ t ∈ hand, cardSuit t = s := by
  have hle := List.count_le_length s (hand.map cardSuit)
  rw [List.length_map, hlen] at hle
  have hiff : (hand.map cardSuit).count s = (hand.map cardSuit).length ↔
      ∀ b ∈ hand.map cardSuit, s = b := List.count_eq_length
  rw [List.length_map, hlen] at hiff
  constructor
  · intro h t ht
    exact (hiff.mp (by omega) (cardSuit t) (List.mem_map_of_mem _ ht)).symm
  · intro h
    have : (hand.map cardSuit).count s = 5 := by
      apply hiff.mpr
      intro b hb
      obtain ⟨t, ht, rfl⟩ := List.mem_map.mp hb
      exact (h t ht).symm
    omega

/-- On five cards a test that needs five cards and ignores their order holds
for some group exactly when all cards share a suit and the test holds for the
ranks of the hand. -/
theorem any_group_five (hand : List String) (hlen : hand.length = 5) (p : List Int → Bool)
    (hp : ∀ l : List Int, l.length < 5 → p l = false) :
    (groupBySuit (hand.map cardSuit) (hand.map cardRank)).any (fun entry => p entry.2) = true ↔
      (∃ s : Char, ∀ t ∈ hand, cardSuit t = s) ∧ p (hand.map cardRank) = true := by
  rw [any_group_iff hand p (hp [] (by decide))]
  constructor
  · rintro ⟨s, hs⟩
    have hall : ∀ t ∈ hand, decide (cardSuit t = s) = true := by
      rw [← List.filter_length_eq_length]
      by_contra hne
      have hle := List.length_filter_le (fun t => decide (cardSuit t = s)) hand
      have hlt : ((hand.filter (fun t => decide (cardSuit t = s))).map cardRank).length < 5 := by
        rw [List.length_map]
        omega
      rw [hp _ hlt] at hs
      exact absurd hs (by decide)
    rw [List.filter_eq_self.mpr hall] at hs
    exact ⟨⟨s, fun t ht => by simpa using hall t ht⟩, hs⟩
  · rintro ⟨⟨s, hall⟩, hp1⟩
    refine ⟨s, ?_⟩
    rw [List.filter_eq_self.mpr (fun t ht => by simpa using hall t ht)]
    exact hp1

/-- Five ranks pass the royal test exactly when they are ten to ace. -/
theorem suitHasRoyal_five (l : List Int) (hlen : l.length = 5) :
    suitHasRoyal l = true ↔ l.Perm [10, 11, 12, 13, 14] := by
  constructor
  · intro h
    obtain ⟨a, b, c, d, e, hs⟩ := exists_five_ranks (sortInts l) (by rw [sortInts_length, hlen])
    simp only [suitHasRoyal, hs, Bool.and_eq_true, decide_eq_true_eq] at h
    obtain ⟨⟨⟨⟨ha, hb⟩, hc⟩, hd⟩, he⟩ := h
    have hperm := sortInts_perm l
    rw [hs, ha, hb, hc, hd, he] at hperm
    exact hperm.symm
  · intro h
    rw [suitHasRoyal_perm h]
    decide

theorem detector_false_of_not {b : Bool} (h : ¬ b = true) :
    (Except.ok b : Except Err Bool) = .ok false := by
  rw [Bool.eq_false_iff.mpr h]

/-- On five valid tokens `isRoyalFlush` holds exactly when all cards share a
suit and the ranks are ten, jack, queen, king and ace. -/
theorem isRoyalFlush_five (hand : List String) (hlen : hand.length = 5)
    (hv : ∀ t ∈ hand, ValidToken t) :
    isRoyalFlush hand = .ok true ↔
      (∃ s : Char, ∀ t ∈ hand, cardSuit t = s) ∧
        (hand.map cardRank).Perm [10, 11, 12, 13, 14] := by
  rw [isRoyalFlush_valid hand hv, ← suitHasRoyal_five _ (by rw [List.length_map, hlen])]
  exact detector_ok_true_iff (any_group_five hand hlen suitHasRoyal suitHasRoyal_small)

/-- On five valid tokens `isStraightFlush` holds exactly when all cards share a
suit and the run test holds for the ranks of the hand. -/
theorem isStraightFlush_five (hand : List String) (hlen : hand.length = 5)
    (hv : ∀ t ∈ hand, ValidToken t) :
    isStraightFlush hand = .ok true ↔
      (∃ s : Char, ∀ t ∈ hand, cardSuit t = s) ∧
        suitHasStraight (hand.map cardRank) = true := by
  rw [isStraightFlush_valid hand hv]
  exact detector_ok_true_iff (any_group_five hand hlen suitHasStraight suitHasStraight_small)

/-- On five valid tokens `isFlush` holds exactly when all cards share a suit. -/
theorem isFlush_five (hand : List String) (hlen : hand.length = 5)
    (hv : ∀ t ∈ hand, ValidToken t) :
    isFlush hand = .ok true ↔ ∃ s : Char, ∀ t ∈ hand, cardSuit t = s := by
  rw [isFlush_valid hand hv]
  apply detector_ok_true_iff
  rw [flushLoop_nil_iff]
  constructor
  · rintro ⟨s, hs⟩
    exact ⟨s, (count_suit_five hand hlen s).mp hs⟩
  · rintro ⟨s, hs⟩
    exact ⟨s, (count_suit_five hand hlen s).mpr hs⟩

theorem evaluateHand_royal_iff (hand : List String) (hv : ∀ t ∈ hand, ValidToken t) :
    evaluateHand hand = .ok .RoyalFlush ↔ isRoyalFlush hand = .ok true := by
  have he := evaluateHand_of_detectors hand _ _ _ _ _ _ _ _ _ (isRoyalFlush_valid hand hv)
    (isStraightFlush_valid hand hv) (isFourOfAKind_valid hand hv) (isFullHouse_valid hand hv)
    (isFlush_valid hand hv) (isStraight_valid hand hv) (isThreeOfAKind_valid hand hv)
    (isTwoPair_valid hand hv) (isOnePair_valid hand hv)
  rw [he, isRoyalFlush_valid hand hv]
  generalize (groupBySuit (hand.map cardSuit) (hand.map cardRank)).any
    (fun entry => suitHasRoyal entry.2) = rf
  cases rf
  · simp only [Bool.false_eq_true, if_false, Except.ok.injEq, iff_false]
    repeat' split
    all_goals simp
  · simp

/-! # Lemmas on the stability of the selection -/

theorem beats_false_iff (compareSameHands : List String → List String → Int)
    (candidate best : List String) :
    beats compareSameHands candidate best = false ↔
      categoryOf candidate < categoryOf best ∨
        (categoryOf candidate = categoryOf best ∧ compareSameHands candidate best ≠ 1) := by
  rw [← Bool.not_eq_true]
  simp only [beats, Bool.or_eq_true, Bool.and_eq_true, decide_eq_true_eq, not_or, not_and]
  constructor
  · rintro ⟨h1, h2⟩
    have hle : (categoryOf candidate).toNat ≤ (categoryOf best).toNat := Nat.le_of_not_lt h1
    by_cases heq : categoryOf candidate = categoryOf best
    · exact Or.inr ⟨heq, h2 heq⟩
    · left
      have hne : (categoryOf candidate).toNat ≠ (categoryOf best).toNat := by
        intro e
        apply heq
        revert e
        cases categoryOf candidate <;> cases categoryOf best <;> simp [Hands.toNat]
      exact Nat.lt_of_le_of_ne hle hne
  · rintro (h | ⟨h1, h2⟩)
    · refine ⟨Nat.lt_asymm h, fun e => ?_⟩
      rw [e] at h
      exact absurd h (Nat.lt_irrefl _)
    · refine ⟨?_, fun _ => h2⟩
      rw [h1]
      exact Nat.lt_irrefl _

/-- The fold ends either on the initial best, which no candidate has beaten, or
on a candidate that no later candidate has beaten. -/
theorem selectFold_stable (compareSameHands : List String → List String → Int)
    (candidates : List (List String)) :
    ∀ best,
      (selectFold compareSameHands best candidates = best ∧
        ∀ x ∈ candidates, beats compareSameHands x best = false) ∨
      ∃ pre post, candidates = pre ++ selectFold compareSameHands best candidates :: post ∧
        ∀ x ∈ post,
          beats compareSameHands x (selectFold compareSameHands best candidates) = false := by
  induction candidates with
  | nil => intro best; exact Or.inl ⟨rfl, fun x hx => absurd hx (List.not_mem_nil x)⟩
  | cons c rest ih =>
    intro best
    rw [selectFold]
    cases hb : beats compareSameHands c best
    · simp only [Bool.false_eq_true, if_false]
      rcases ih best with ⟨h1, h2⟩ | ⟨pre, post, h1, h2⟩
      · left
        refine ⟨h1, fun x hx => ?_⟩
        rcases List.mem_cons.mp hx with e | e
        · rw [e]; exact hb
        · exact h2 x e
      · right
        exact ⟨c :: pre, post, by rw [List.cons_append, ← h1], h2⟩
    · simp only [if_true]
      rcases ih c with ⟨h1, h2⟩ | ⟨pre, post, h1, h2⟩
      · right
        refine ⟨[], rest, by rw [h1]; rfl, ?_⟩
        rw [h1]
        exact h2
      · right
        exact ⟨c :: pre, post, by rw [List.cons_append, ← h1], h2⟩

/-- With a comparator that never returns `1` the fold ends on the initial best
when no candidate has a higher category, and otherwise on the first candidate
of the highest category. -/
theorem selectFold_first_max (compareSameHands : List String → List String → Int)
    (hcmp : ∀ a b, compareSameHands a b ≠ 1) (candidates : List (List String)) :
    ∀ best,
      (selectFold compareSameHands best candidates = best ∧
        ∀ x ∈ candidates, categoryOf x ≤ categoryOf best) ∨
      ∃ pre post, candidates = pre ++ selectFold compareSameHands best candidates :: post ∧
        categoryOf best < categoryOf (selectFold compareSameHands best candidates) ∧
        (∀ x ∈ pre,
          categoryOf x < categoryOf (selectFold compareSameHands best candidates)) ∧
        ∀ x ∈ post,
          categoryOf x ≤ categoryOf (selectFold compareSameHands best candidates) := by
  induction candidates with
  | nil => intro best; exact Or.inl ⟨rfl, fun x hx => absurd hx (List.not_mem_nil x)⟩
  | cons c rest ih =>
    intro best
    rw [selectFold]
    have hbeats : beats compareSameHands c best = decide (categoryOf c > categoryOf best) := by
      simp [beats, hcmp c best]
    by_cases hgt : categoryOf c > categoryOf best
    · rw [hbeats]
      simp only [hgt, decide_True, if_true]
      rcases ih c with ⟨h1, h2⟩ | ⟨pre, post, h1, h2, h3, h4⟩
      · right
        refine ⟨[], rest, by rw [h1]; rfl, by rw [h1]; exact hgt, ?_, by rw [h1]; exact h2⟩
        intro x hx
        exact absurd hx (List.not_mem_nil x)
      · right
        refine ⟨c :: pre, post, by rw [List.cons_append, ← h1], Nat.lt_trans hgt h2, ?_, h4⟩
        intro x hx
        rcases List.mem_cons.mp hx with e | e
        · rw [e]; exact h2
        · exact h3 x e
    · rw [hbeats]
      simp only [hgt, decide_False, Bool.false_eq_true, if_false]
      have hle : categoryOf c ≤ categoryOf best := Nat.le_of_not_lt hgt
      rcases ih best with ⟨h1, h2⟩ | ⟨pre, post, h1, h2, h3, h4⟩
      · left
        refine ⟨h1, fun x hx => ?_⟩
        rcases List.mem_cons.mp hx with e | e
        · rw [e]; exact hle
        · exact h2 x e
      · right
        refine ⟨c :: pre, post, by rw [List.cons_append, ← h1], h2, ?_, h4⟩
        intro x hx
        rcases List.mem_cons.mp hx with e | e
        · rw [e]; exact Nat.lt_of_le_of_lt hle h2
        · exact h3 x e

theorem fiveOfSeven_picks_head (hand : List String) (hh : 5 ≤ hand.length) :
    fiveOfSeven.map (fun m => pickMask m hand)
      = hand.take 5 :: (fiveOfSeven.tail.map (fun m => pickMask m hand)) := by
  rw [← pickMask_initial hand hh]
  rfl

/-! # Lemmas on hands that hold the four cards of a rank -/

/-- C1: on a hand of valid tokens every detector returns a boolean and
`evaluateHand` returns the category of the first detector that holds in the
order royal flush, straight flush, four of a kind, full house, flush,
straight, three of a kind, two pair, one pair, and `NoMatch` when none holds;
so it returns `RoyalFlush` iff `isRoyalFlush` holds, a weaker category iff its
detector holds and all detectors before it are false, and `NoMatch` iff all
detectors are false. -/
theorem evaluateHand_first_match (hand : List String) (hv : ∀ t ∈ hand, ValidToken t) :
    ∃ rf sf fk fh fl st tk tp op : Bool,
      isRoyalFlush hand = .ok rf ∧ isStraightFlush hand = .ok sf ∧
      isFourOfAKind hand = .ok fk ∧ isFullHouse hand = .ok fh ∧ isFlush hand = .ok fl ∧
      isStraight hand = .ok st ∧ isThreeOfAKind hand = .ok tk ∧ isTwoPair hand = .ok tp ∧
      isOnePair hand = .ok op ∧
      evaluateHand hand = .ok
        (if rf then .RoyalFlush else if sf then .StraightFlush else if fk then .FourOfAKind
         else if fh then .FullHouse else if fl then .Flush else if st then .Straight
         else if tk then .ThreeOfAKind else if tp then .TwoPair else if op then .OnePair
         else .NoMatch) ∧
      (evaluateHand hand = .ok .RoyalFlush ↔ rf = true) ∧
      (evaluateHand hand = .ok .StraightFlush ↔ sf = true ∧ rf = false) ∧
      (evaluateHand hand = .ok .FourOfAKind ↔ fk = true ∧ rf = false ∧ sf = false) ∧
      (evaluateHand hand = .ok .FullHouse ↔ fh = true ∧ rf = false ∧ sf = false ∧ fk = false) ∧
      (evaluateHand hand = .ok .Flush ↔
        fl = true ∧ rf = false ∧ sf = false ∧ fk = false ∧ fh = false) ∧
      (evaluateHand hand = .ok .Straight ↔
        st = true ∧ rf = false ∧ sf = false ∧ fk = false ∧ fh = false ∧ fl = false) ∧
      (evaluateHand hand = .ok .ThreeOfAKind ↔
        tk = true ∧ rf = false ∧ sf = false ∧ fk = false ∧ fh = false ∧ fl = false ∧
          st = false) ∧
      (evaluateHand hand = .ok .TwoPair ↔
        tp = true ∧ rf = false ∧ sf = false ∧ fk = false ∧ fh = false ∧ fl = false ∧
          st = false ∧ tk = false) ∧
      (evaluateHand hand = .ok .OnePair ↔
        op = true ∧ rf = false ∧ sf = false ∧ fk = false ∧ fh = false ∧ fl = false ∧
          st = false ∧ tk = false ∧ tp = false) ∧
      (evaluateHand hand = .ok .NoMatch ↔
        rf = false ∧ sf = false ∧ fk = false ∧ fh = false ∧ fl = false ∧ st = false ∧
          tk = false ∧ tp = false ∧ op = false) := by
  have h1 := isRoyalFlush_valid hand hv
  have h2 := isStraightFlush_valid hand hv
  have h3 := isFourOfAKind_valid hand hv
  have h4 := isFullHouse_valid hand hv
  have h5 := isFlush_valid hand hv
  have h6 := isStraight_valid hand hv
  have h7 := isThreeOfAKind_valid hand hv
  have h8 := isTwoPair_valid hand hv
  have h9 := isOnePair_valid hand hv
  have he := evaluateHand_of_detectors hand _ _ _ _ _ _ _ _ _ h1 h2 h3 h4 h5 h6 h7 h8 h9
  refine ⟨_, _, _, _, _, _, _, _, _, h1, h2, h3, h4, h5, h6, h7, h8, h9, he, ?_⟩
  rw [he]
  generalize (groupBySuit (hand.map cardSuit) (hand.map cardRank)).any
    (fun entry => suitHasRoyal entry.2) = rf
  generalize (groupBySuit (hand.map cardSuit) (hand.map cardRank)).any
    (fun pair => suitHasStraight pair.2) = sf
  generalize (countOccurrences (hand.map cardRank)).any (fun count => count.2 == 4) = fk
  generalize fullHouseOfCounts (countOccurrences (hand.map cardRank)) = fh
  generalize flushLoop (hand.map cardSuit) [] = fl
  generalize straightOfNumbers (hand.map cardRank) = st
  generalize (countOccurrences (hand.map cardRank)).any (fun count => count.2 == 3) = tk
  generalize twoPairLoop (countOccurrences (hand.map cardRank)) 0 = tp
  generalize (countOccurrences (hand.map cardRank)).any (fun count => count.2 == 2) = op
  cases rf <;> cases sf <;> cases fk <;> cases fh <;> cases fl <;> cases st <;> cases tk <;>
    cases tp <;> cases op <;> simp

theorem evaluateHand_first_match_witness :
    ∃ rf sf fk fh fl st tk tp op : Bool,
      isRoyalFlush ["2C", "2S", "2D", "5H", "5C"] = .ok rf ∧
      isStraightFlush ["2C", "2S", "2D", "5H", "5C"] = .ok sf ∧
      isFourOfAKind ["2C", "2S", "2D", "5H", "5C"] = .ok fk ∧
      isFullHouse ["2C", "2S", "2D", "5H", "5C"] = .ok fh ∧
      isFlush ["2C", "2S", "2D", "5H", "5C"] = .ok fl ∧
      isStraight ["2C", "2S", "2D", "5H", "5C"] = .ok st ∧
      isThreeOfAKind ["2C", "2S", "2D", "5H", "5C"] = .ok tk ∧
      isTwoPair ["2C", "2S", "2D", "5H", "5C"] = .ok tp ∧
      isOnePair ["2C", "2S", "2D", "5H", "5C"] = .ok op ∧
      evaluateHand ["2C", "2S", "2D", "5H", "5C"] = .ok .FullHouse ∧
      fh = true ∧ rf = false ∧ sf = false ∧ fk = false := by
  obtain ⟨rf, sf, fk, fh, fl, st, tk, tp, op, h1, h2, h3, h4, h5, h6, h7, h8, h9, -, -, -, -,
    hfh, -⟩ := evaluateHand_first_match ["2C", "2S", "2D", "5H", "5C"] (by decide)
  have hev : evaluateHand ["2C", "2S", "2D", "5H", "5C"] = .ok .FullHouse := by decide
  exact ⟨rf, sf, fk, fh, fl, st, tk, tp, op, h1, h2, h3, h4, h5, h6, h7, h8, h9, hev,
    hfh.mp hev⟩

/-- C5: for a hand of any length `evaluateHand` throws exactly when some token
has a length other than 2, or a first character that is no rank character, or
a second character that is no suit character, and returns a category in every
other case; a hand containing `1C` or `AX` is rejected. -/
theorem evaluateHand_error_iff (hand : List String) :
    ((∃ e, evaluateHand hand = .error e) ↔
      ∃ t ∈ hand, t.length ≠ 2 ∨ t.data.getD 0 ' ' ∉ rankChars ∨
        t.data.getD 1 ' ' ∉ suitChars) ∧
    ((∃ c, evaluateHand hand = .ok c) ↔
      ¬ ∃ t ∈ hand, t.length ≠ 2 ∨ t.data.getD 0 ' ' ∉ rankChars ∨
        t.data.getD 1 ' ' ∉ suitChars) ∧
    ("1C" ∈ hand ∨ "AX" ∈ hand → ∃ e, evaluateHand hand = .error e) := by
  have key : (∃ t ∈ hand, t.length ≠ 2 ∨ t.data.getD 0 ' ' ∉ rankChars ∨
      t.data.getD 1 ' ' ∉ suitChars) ↔ ∃ t ∈ hand, ¬ ValidToken t := by
    constructor
    · rintro ⟨t, ht, hbad⟩
      refine ⟨t, ht, fun hv => ?_⟩
      rcases hbad with h | h | h
      · exact h hv.1
      · exact h hv.2.1
      · exact h hv.2.2
    · rintro ⟨t, ht, hbad⟩
      refine ⟨t, ht, ?_⟩
      by_contra hcon
      push_neg at hcon
      exact hbad ⟨hcon.1, hcon.2.1, hcon.2.2⟩
  have herr : (∃ e, evaluateHand hand = .error e) ↔ ∃ t ∈ hand, ¬ ValidToken t := by
    constructor
    · rintro ⟨e, he⟩
      by_contra hcon
      have hv : ∀ t ∈ hand, ValidToken t :=
        fun t ht => by_contra (fun hh => hcon ⟨t, ht, hh⟩)
      obtain ⟨c, hc⟩ := evaluateHand_valid hand hv
      rw [hc] at he
      exact Except.noConfusion he
    · exact evaluateHand_invalid hand
  refine ⟨herr.trans key.symm, ?_, ?_⟩
  · rw [key]
    constructor
    · rintro ⟨c, hc⟩ hbad
      obtain ⟨e, he⟩ := evaluateHand_invalid hand hbad
      rw [hc] at he
      exact Except.noConfusion he
    · intro hgood
      exact evaluateHand_valid hand (fun t ht => by_contra (fun hh => hgood ⟨t, ht, hh⟩))
  · intro h
    apply evaluateHand_invalid
    rcases h with h | h
    · exact ⟨"1C", h, by decide⟩
    · exact ⟨"AX", h, by decide⟩

theorem evaluateHand_error_iff_witness :
    ("1C" ∈ ["2C", "1C", "3D", "4H", "5S"] ∨ "AX" ∈ ["2C", "1C", "3D", "4H", "5S"]) ∧
    (∃ e, evaluateHand ["2C", "1C", "3D", "4H", "5S"] = .error e) ∧
    evaluateHand ["2C", "1C", "3D", "4H", "5S"]
      = .error (.invalidArgument "Invalid character for rank") ∧
    evaluateHand ["2C", "AX", "3D", "4H", "5S"] = .error (.invalidArgument "wrong suit") ∧
    evaluateHand ["2C", "ACE", "3D", "4H", "5S"]
      = .error (.invalidArgument "wrong hand format") :=
  ⟨by decide,
    (evaluateHand_error_iff ["2C", "1C", "3D", "4H", "5S"]).2.2 (by decide),
    by decide, by decide, by decide⟩

/-- C6: `makeCompleteHand` throws a duplicate-card error exactly when the
community cards followed by the hole cards hold the same token at two
different positions, and returns the community cards followed by the hole
cards otherwise; two cards of one rank and different suits are no duplicates. -/
theorem makeCompleteHand_duplicate_iff (holeCards communityCards : List String) :
    ((∃ card, makeCompleteHand holeCards communityCards
        = .error (.invalidArgument ("Duplicate card found: " ++ card))) ↔
      ∃ i j, i < j ∧ j < (communityCards ++ holeCards).length ∧
        (communityCards ++ holeCards)[i]? = (communityCards ++ holeCards)[j]?) ∧
    ((∃ e, makeCompleteHand holeCards communityCards = .error e) ↔
      ∃ i j, i < j ∧ j < (communityCards ++ holeCards).length ∧
        (communityCards ++ holeCards)[i]? = (communityCards ++ holeCards)[j]?) ∧
    (makeCompleteHand holeCards communityCards = .ok (communityCards ++ holeCards) ↔
      ¬ ∃ i j, i < j ∧ j < (communityCards ++ holeCards).length ∧
        (communityCards ++ holeCards)[i]? = (communityCards ++ holeCards)[j]?) ∧
    makeCompleteHand ["AD"] ["AC", "KD"] = .ok ["AC", "KD", "AD"] := by
  rw [← not_nodup_iff_positions]
  refine ⟨?_, ?_, ?_, by decide⟩
  · constructor
    · rintro ⟨card, hc⟩ hnd
      rw [makeCompleteHand_nodup _ _ hnd] at hc
      exact Except.noConfusion hc
    · intro hnd
      obtain ⟨card, -, hc⟩ := makeCompleteHand_dup _ _ hnd
      exact ⟨card, hc⟩
  · constructor
    · rintro ⟨e, hc⟩ hnd
      rw [makeCompleteHand_nodup _ _ hnd] at hc
      exact Except.noConfusion hc
    · intro hnd
      obtain ⟨card, -, hc⟩ := makeCompleteHand_dup _ _ hnd
      exact ⟨_, hc⟩
  · constructor
    · intro hok hnd
      obtain ⟨card, -, hc⟩ := makeCompleteHand_dup _ _ hnd
      rw [hok] at hc
      exact Except.noConfusion hc
    · intro hnd
      exact makeCompleteHand_nodup _ _ (not_not.mp hnd)

/-- C2: for a hand of seven valid tokens and any comparator, the hand returned
by `findBestFiveCardHand` (given fuel for the 21 iterations) is classified by
`evaluateHand`, and its category is at least the category of every
sub-selection of five cards of the input. -/
theorem findBestFiveCardHand_max_category
    (compareSameHands : List String → List String → Int) (hand : List String)
    (hlen : hand.length = 7) (hv : ∀ t ∈ hand, ValidToken t) (fuel : Nat) (hf : 21 ≤ fuel) :
    ∃ result best, findBestFiveCardHand compareSameHands fuel hand = some (.ok result) ∧
      evaluateHand result = .ok best ∧
      ∀ s : List String, s.Sublist hand → s.length = 5 →
        ∃ c, evaluateHand s = .ok c ∧ c ≤ best := by
  have htake : hand.take 7 = hand := List.take_of_length_le (by omega)
  have hv7 : ∀ t ∈ hand.take 7, ValidToken t := by rw [htake]; exact hv
  have heq := findBestFiveCardHand_eq compareSameHands fuel hand (by omega) hv7
  rw [if_pos hf] at heq
  obtain ⟨m, hm, hres⟩ := selectFold_picked compareSameHands hand (by omega)
  obtain ⟨best, hbest⟩ := picked_evaluates hand hv7 m hm
  refine ⟨_, best, heq, by rw [hres]; exact hbest, ?_⟩
  intro s hs hs5
  obtain ⟨mask, hl, hcount, hpick⟩ := sublist_eq_pickMask hs
  have hmask : mask ∈ fiveOfSeven := mask_mem_fiveOfSeven mask (by omega) (by omega)
  obtain ⟨c, hc⟩ := picked_evaluates hand hv7 mask hmask
  refine ⟨c, by rw [hpick]; exact hc, ?_⟩
  have hmax := selectFold_max compareSameHands (fiveOfSeven.map (fun m => pickMask m hand))
    (hand.take 5) (pickMask mask hand)
    (List.mem_cons_of_mem _ (List.mem_map.mpr ⟨mask, hmask, rfl⟩))
  rw [hres, categoryOf_of_ok hc, categoryOf_of_ok hbest] at hmax
  exact hmax

theorem findBestFiveCardHand_max_category_witness :
    ∃ result best,
      findBestFiveCardHand (fun _ _ => 0) 21 ["4C", "4D", "4S", "4H", "3D", "3H", "2C"]
        = some (.ok result) ∧
      evaluateHand result = .ok best ∧
      ∀ s : List String, s.Sublist ["4C", "4D", "4S", "4H", "3D", "3H", "2C"] → s.length = 5 →
        ∃ c, evaluateHand s = .ok c ∧ c ≤ best :=
  findBestFiveCardHand_max_category (fun _ _ => 0) ["4C", "4D", "4S", "4H", "3D", "3H", "2C"]
    rfl (by decide) 21 (Nat.le_refl 21)

set_option maxRecDepth 100000 in
/-- C3, as stated, fails: on seven tokens of which the sixth is `1C` the loop
does not run 21 iterations. The first iteration (positions 0 to 4) passes, the
second selects the sixth token and `evaluateHand` throws, which ends the call
in the second iteration; with `1C` among the first five tokens the exception
is thrown before the loop is entered. -/
theorem findBestFiveCardHand_malformed_token_ends_early :
    ["2C", "3C", "4C", "5C", "6C", "1C", "7C"].length = 7 ∧
    findBestFiveCardHand (fun _ _ => 0) 1 ["2C", "3C", "4C", "5C", "6C", "1C", "7C"] = none ∧
    findBestFiveCardHand (fun _ _ => 0) 2 ["2C", "3C", "4C", "5C", "6C", "1C", "7C"]
      = some (.error (.invalidArgument "Invalid character for rank")) ∧
    findBestFiveCardHand (fun _ _ => 0) 21 ["2C", "3C", "4C", "5C", "6C", "1C", "7C"]
      = some (.error (.invalidArgument "Invalid character for rank")) ∧
    ["1C", "3C", "4C", "5C", "6C", "2C", "7C"].length = 7 ∧
    findBestFiveCardHand (fun _ _ => 0) 0 ["1C", "3C", "4C", "5C", "6C", "2C", "7C"]
      = some (.error (.invalidArgument "Invalid character for rank")) := by
  decide

/-- C3, amended: the do-while loop of `findBestFiveCardHand` steps the mask
through exactly 21 values and then ends; these are the 21 distinct masks of
length seven with five flags set, each once, the first selecting positions 0
to 4. On seven cards the call has ended within 21 iterations whatever the
tokens are; when they are valid tokens, so that no exception of `evaluateHand`
ends the loop early, it has not ended within fewer than 21 iterations, and its
result is the fold of the comparison over the 21 selected hands. -/
theorem findBestFiveCardHand_twenty_one_masks
    (compareSameHands : List String → List String → Int) (hand : List String)
    (hlen : hand.length = 7) :
    visitedMasks 21 initialSelect = (fiveOfSeven, true) ∧
    (∀ n, n < 21 → (visitedMasks n initialSelect).2 = false) ∧
    fiveOfSeven.length = 21 ∧ fiveOfSeven.Nodup ∧
    (∀ mask, mask ∈ fiveOfSeven ↔ mask.length = 7 ∧ mask.count true = 5) ∧
    fiveOfSeven.head? = some initialSelect ∧
    pickMask initialSelect hand = hand.take 5 ∧
    findBestFiveCardHand compareSameHands 21 hand ≠ none ∧
    ((∀ t ∈ hand, ValidToken t) →
      (∀ n, n < 21 → findBestFiveCardHand compareSameHands n hand = none) ∧
      findBestFiveCardHand compareSameHands 21 hand
        = some (.ok (selectFold compareSameHands (hand.take 5)
            (fiveOfSeven.map (fun m => pickMask m hand))))) := by
  have htake : hand.take 7 = hand := List.take_of_length_le (by omega)
  refine ⟨visitedMasks_initial, fun n hn => (visitedMasks_of_lt n hn).1, by decide, by decide,
    fiveOfSeven_spec, by decide, pickMask_initial hand (by omega),
    findBestFiveCardHand_ends compareSameHands 21 (Nat.le_refl 21) hand (by omega), ?_⟩
  intro hv
  have hv7 : ∀ t ∈ hand.take 7, ValidToken t := by rw [htake]; exact hv
  constructor
  · intro n hn
    rw [findBestFiveCardHand_eq compareSameHands n hand (by omega) hv7, if_neg (by omega)]
  · rw [findBestFiveCardHand_eq compareSameHands 21 hand (by omega) hv7, if_pos (Nat.le_refl 21)]

theorem findBestFiveCardHand_twenty_one_masks_witness :
    (∀ n, n < 21 →
      findBestFiveCardHand (fun _ _ => 0) n ["AC", "KC", "QC", "JC", "TC", "9C", "2D"] = none) ∧
    findBestFiveCardHand (fun _ _ => 0) 21 ["AC", "KC", "QC", "JC", "TC", "9C", "2D"]
      = some (.ok (selectFold (fun _ _ => 0) (["AC", "KC", "QC", "JC", "TC", "9C", "2D"].take 5)
          (fiveOfSeven.map (fun m => pickMask m ["AC", "KC", "QC", "JC", "TC", "9C", "2D"])))) :=
  (findBestFiveCardHand_twenty_one_masks (fun _ _ => 0)
    ["AC", "KC", "QC", "JC", "TC", "9C", "2D"] rfl).2.2.2.2.2.2.2.2 (by decide)

/-- C4: for a hand of seven valid tokens and any comparator,
`findBestFiveCardHand` (given fuel for the 21 iterations) returns a hand of
five tokens, which are the tokens of the input at five strictly increasing
positions, in that order. -/
theorem findBestFiveCardHand_subselection
    (compareSameHands : List String → List String → Int) (hand : List String)
    (hlen : hand.length = 7) (hv : ∀ t ∈ hand, ValidToken t) (fuel : Nat) (hf : 21 ≤ fuel) :
    ∃ result, findBestFiveCardHand compareSameHands fuel hand = some (.ok result) ∧
      result.length = 5 ∧ result.Sublist hand ∧
      ∃ positions : List Nat, positions.length = 5 ∧ positions.Pairwise (· < ·) ∧
        (∀ p ∈ positions, p < 7) ∧ result.map some = positions.map (fun p => hand[p]?) := by
  have htake : hand.take 7 = hand := List.take_of_length_le (by omega)
  have hv7 : ∀ t ∈ hand.take 7, ValidToken t := by rw [htake]; exact hv
  have heq := findBestFiveCardHand_eq compareSameHands fuel hand (by omega) hv7
  rw [if_pos hf] at heq
  obtain ⟨m, hm, hres⟩ := selectFold_picked compareSameHands hand (by omega)
  rw [hres] at heq
  obtain ⟨-, h5, -⟩ := gatherLoop_fiveOfSeven m hm hand (List.replicate 5 "") (by omega) (by simp)
  exact ⟨_, heq, h5, pickMask_sublist m hand, maskPositions m 0,
    pickMask_positions m hm hand hlen⟩

theorem findBestFiveCardHand_subselection_witness :
    ∃ result,
      findBestFiveCardHand (fun a b => if a.length ≤ b.length then 1 else 0) 21
        ["2C", "7D", "9H", "JS", "KC", "3D", "5H"] = some (.ok result) ∧
      result.length = 5 ∧ result.Sublist ["2C", "7D", "9H", "JS", "KC", "3D", "5H"] ∧
      ∃ positions : List Nat, positions.length = 5 ∧ positions.Pairwise (· < ·) ∧
        (∀ p ∈ positions, p < 7) ∧
        result.map some
          = positions.map (fun p => ["2C", "7D", "9H", "JS", "KC", "3D", "5H"][p]?) :=
  findBestFiveCardHand_subselection (fun a b => if a.length ≤ b.length then 1 else 0)
    ["2C", "7D", "9H", "JS", "KC", "3D", "5H"] rfl (by decide) 21 (Nat.le_refl 21)

set_option maxRecDepth 100000 in
/-- C7, as stated, fails: an input of eight cards is accepted, and the hand
returned is chosen among the first seven cards. -/
theorem findBestFiveCardHand_eight_cards :
    ["4C", "4D", "4S", "4H", "3D", "3H", "2C", "AC"].length ≠ 7 ∧
    findBestFiveCardHand (fun _ _ => 0) 21 ["4C", "4D", "4S", "4H", "3D", "3H", "2C", "AC"]
      = some (.ok ["4C", "4D", "4S", "4H", "3D"]) := by
  decide

/-- C7, amended: `findBestFiveCardHand` has no check of the number of cards.
On an input of at least seven cards it reads the first seven only and does
what it does on these seven; when they are valid tokens it returns a hand of
five of them (given fuel for the 21 iterations). -/
theorem findBestFiveCardHand_no_size_check
    (compareSameHands : List String → List String → Int) (fuel : Nat) (hand : List String)
    (hh : 7 ≤ hand.length) :
    findBestFiveCardHand compareSameHands fuel hand
      = findBestFiveCardHand compareSameHands fuel (hand.take 7) ∧
    ((∀ t ∈ hand.take 7, ValidToken t) → 21 ≤ fuel →
      ∃ result, findBestFiveCardHand compareSameHands fuel hand = some (.ok result) ∧
        result.length = 5 ∧ result.Sublist (hand.take 7)) := by
  refine ⟨(findBestFiveCardHand_take compareSameHands fuel hand hh).symm, ?_⟩
  intro hv hf
  have heq := findBestFiveCardHand_eq compareSameHands fuel hand hh hv
  rw [if_pos hf] at heq
  obtain ⟨m, hm, hres⟩ := selectFold_picked compareSameHands hand (by omega)
  rw [hres] at heq
  obtain ⟨-, h5, hsub⟩ :=
    gatherLoop_fiveOfSeven m hm hand (List.replicate 5 "") hh (by simp)
  exact ⟨_, heq, h5, hsub⟩

theorem findBestFiveCardHand_no_size_check_witness :
    findBestFiveCardHand (fun _ _ => 0) 21 ["4C", "4D", "4S", "4H", "3D", "3H", "2C", "AC"]
      = findBestFiveCardHand (fun _ _ => 0) 21
          (["4C", "4D", "4S", "4H", "3D", "3H", "2C", "AC"].take 7) ∧
    ∃ result,
      findBestFiveCardHand (fun _ _ => 0) 21 ["4C", "4D", "4S", "4H", "3D", "3H", "2C", "AC"]
        = some (.ok result) ∧
      result.length = 5 ∧
      result.Sublist (["4C", "4D", "4S", "4H", "3D", "3H", "2C", "AC"].take 7) :=
  ⟨(findBestFiveCardHand_no_size_check (fun _ _ => 0) 21
      ["4C", "4D", "4S", "4H", "3D", "3H", "2C", "AC"] (by decide)).1,
    (findBestFiveCardHand_no_size_check (fun _ _ => 0) 21
      ["4C", "4D", "4S", "4H", "3D", "3H", "2C", "AC"] (by decide)).2 (by decide)
      (Nat.le_refl 21)⟩

/-- C8: the ace-low straight in one suit is not recognised by
`isStraightFlush`, although `isStraight` and `isFlush` both hold on it, and
`evaluateHand` classifies it as `Flush`. -/
theorem wheel_in_one_suit_is_flush :
    isStraightFlush ["AC", "2C", "3C", "4C", "5C"] = .ok false ∧
    isStraight ["AC", "2C", "3C", "4C", "5C"] = .ok true ∧
    isFlush ["AC", "2C", "3C", "4C", "5C"] = .ok true ∧
    evaluateHand ["AC", "2C", "3C", "4C", "5C"] = .ok .Flush ∧
    evaluateHand ["AS", "2S", "3S", "4S", "5S"] = .ok .Flush ∧
    evaluateHand ["AD", "2D", "3D", "4D", "5D"] = .ok .Flush ∧
    evaluateHand ["5H", "4H", "3H", "2H", "AH"] = .ok .Flush := by
  decide

/-- C10: for a hand of valid tokens of any size, `isFullHouse` returns `true`
exactly when two distinct ranks exist of which one occurs at least three times
and the other at least twice; so five cards of which four share a rank are no
full house. -/
theorem isFullHouse_iff (hand : List String) (hv : ∀ t ∈ hand, ValidToken t) :
    (∃ b, isFullHouse hand = .ok b) ∧
    (isFullHouse hand = .ok true ↔
      ∃ r1 r2 : Int, r1 ≠ r2 ∧ 3 ≤ (hand.map cardRank).count r1 ∧
        2 ≤ (hand.map cardRank).count r2) ∧
    (hand.length = 5 → (∃ r : Int, (hand.map cardRank).count r = 4) →
      isFullHouse hand = .ok false) := by
  have hfh := isFullHouse_valid hand hv
  have hiff := fullHouseOfCounts_iff (hand.map cardRank)
  refine ⟨⟨_, hfh⟩, ?_, ?_⟩
  · rw [hfh, ← hiff]
    constructor
    · intro h
      exact Except.ok.inj h
    · intro h
      rw [h]
  · intro h5 hfour
    obtain ⟨r, hr⟩ := hfour
    rw [hfh]
    cases hb : fullHouseOfCounts (countOccurrences (hand.map cardRank)) with
    | false => rfl
    | true =>
      exfalso
      obtain ⟨r1, r2, hne, h1, h2⟩ := hiff.mp hb
      have hlen : (hand.map cardRank).length = 5 := by rw [List.length_map, h5]
      by_cases hr1 : r1 = r
      · have := count_add_count_le (hand.map cardRank) r1 r2 hne
        rw [hr1] at this
        omega
      · have := count_add_count_le (hand.map cardRank) r1 r hr1
        omega

theorem isFullHouse_iff_witness :
    (isFullHouse ["2C", "2S", "2D", "5H", "5C"] = .ok true ↔
      ∃ r1 r2 : Int, r1 ≠ r2 ∧ 3 ≤ (["2C", "2S", "2D", "5H", "5C"].map cardRank).count r1 ∧
        2 ≤ (["2C", "2S", "2D", "5H", "5C"].map cardRank).count r2) ∧
    isFullHouse ["2C", "2S", "2D", "5H", "5C"] = .ok true ∧
    isFullHouse ["9C", "9S", "9D", "9H", "KC"] = .ok false :=
  ⟨(isFullHouse_iff ["2C", "2S", "2D", "5H", "5C"] (by decide)).2.1, by decide,
    (isFullHouse_iff ["9C", "9S", "9D", "9H", "KC"] (by decide)).2.2 rfl ⟨9, by decide⟩⟩

/-- C9: for a hand of five valid tokens `isStraight` returns `true` exactly
when the five ranks are pairwise distinct and either the highest rank minus
the lowest is 4 or the ranks are exactly 2, 3, 4, 5 and 14; the ranks
12, 13, 14, 2, 3 give `false`. -/
theorem isStraight_iff (hand : List String) (hlen : hand.length = 5)
    (hv : ∀ t ∈ hand, ValidToken t) :
    (∃ b, isStraight hand = .ok b) ∧
    (isStraight hand = .ok true ↔
      (hand.map cardRank).Nodup ∧
        ((∃ lo ∈ hand.map cardRank, ∃ hi ∈ hand.map cardRank,
            (∀ r ∈ hand.map cardRank, lo ≤ r ∧ r ≤ hi) ∧ hi - lo = 4) ∨
          ∀ r, r ∈ hand.map cardRank ↔ r ∈ [2, 3, 4, 5, 14])) ∧
    isStraight ["QC", "KD", "AH", "2S", "3C"] = .ok false := by
  have hs := isStraight_valid hand hv
  refine ⟨⟨_, hs⟩, ?_, by decide⟩
  rw [hs, ← straightOfNumbers_five (hand.map cardRank) (by rw [List.length_map, hlen])]
  constructor
  · intro h
    exact Except.ok.inj h
  · intro h
    rw [h]

theorem isStraight_iff_witness :
    (isStraight ["AC", "2D", "3H", "4S", "5C"] = .ok true ↔
      (["AC", "2D", "3H", "4S", "5C"].map cardRank).Nodup ∧
        ((∃ lo ∈ ["AC", "2D", "3H", "4S", "5C"].map cardRank,
            ∃ hi ∈ ["AC", "2D", "3H", "4S", "5C"].map cardRank,
            (∀ r ∈ ["AC", "2D", "3H", "4S", "5C"].map cardRank, lo ≤ r ∧ r ≤ hi) ∧ hi - lo = 4) ∨
          ∀ r, r ∈ ["AC", "2D", "3H", "4S", "5C"].map cardRank ↔ r ∈ [2, 3, 4, 5, 14])) ∧
    isStraight ["AC", "2D", "3H", "4S", "5C"] = .ok true ∧
    isStraight ["9C", "TD", "JH", "QS", "KC"] = .ok true ∧
    isStraight ["9C", "TD", "JH", "QS", "9D"] = .ok false :=
  ⟨(isStraight_iff ["AC", "2D", "3H", "4S", "5C"] rfl (by decide)).2.1, by decide, by decide,
    by decide⟩

/-- C13: on a hand of five valid tokens on which `isFullHouse` returns `true`,
`isThreeOfAKind` returns `true` as well: some rank occurs exactly three
times. -/
theorem isThreeOfAKind_of_isFullHouse (hand : List String) (hlen : hand.length = 5)
    (hv : ∀ t ∈ hand, ValidToken t) (hfull : isFullHouse hand = .ok true) :
    isThreeOfAKind hand = .ok true ∧ ∃ r : Int, (hand.map cardRank).count r = 3 := by
  rw [isFullHouse_valid hand hv] at hfull
  obtain ⟨r1, r2, hne, h1, h2⟩ :=
    (fullHouseOfCounts_iff (hand.map cardRank)).mp (Except.ok.inj hfull)
  have hsum := count_add_count_le (hand.map cardRank) r1 r2 hne
  rw [List.length_map, hlen] at hsum
  have h3 : (hand.map cardRank).count r1 = 3 := by omega
  refine ⟨?_, r1, h3⟩
  rw [isThreeOfAKind_valid hand hv]
  exact (detector_ok_true_iff (any_count_iff (hand.map cardRank) 3 (by decide))).mpr ⟨r1, h3⟩

theorem isThreeOfAKind_of_isFullHouse_witness :
    isThreeOfAKind ["2C", "2S", "2D", "5H", "5C"] = .ok true ∧
      ∃ r : Int, (["2C", "2S", "2D", "5H", "5C"].map cardRank).count r = 3 :=
  isThreeOfAKind_of_isFullHouse ["2C", "2S", "2D", "5H", "5C"] rfl (by decide) (by decide)

/-- C17, as stated, fails: on a hand with two pairs `isOnePair` returns `true`
although two ranks, not exactly one, occur exactly twice. -/
theorem isOnePair_two_pairs :
    isOnePair ["2C", "2D", "3C", "3D", "4C"] = .ok true ∧
    ¬ ∃! r : Int, (["2C", "2D", "3C", "3D", "4C"].map cardRank).count r = 2 := by
  refine ⟨by decide, ?_⟩
  rintro ⟨r, -, huniq⟩
  have h2 : (2 : Int) = r := huniq 2 (by decide)
  have h3 : (3 : Int) = r := huniq 3 (by decide)
  omega

/-- C17, amended: on a hand of valid tokens `isOnePair` returns `true` exactly
when at least one rank occurs exactly twice. -/
theorem isOnePair_iff (hand : List String) (hv : ∀ t ∈ hand, ValidToken t) :
    (∃ b, isOnePair hand = .ok b) ∧
    (isOnePair hand = .ok true ↔ ∃ r : Int, (hand.map cardRank).count r = 2) := by
  rw [isOnePair_valid hand hv]
  exact ⟨⟨_, rfl⟩, detector_ok_true_iff (any_count_iff (hand.map cardRank) 2 (by decide))⟩

theorem isOnePair_iff_witness :
    (isOnePair ["2C", "2D", "3C", "7D", "4C"] = .ok true ↔
      ∃ r : Int, (["2C", "2D", "3C", "7D", "4C"].map cardRank).count r = 2) ∧
    isOnePair ["2C", "2D", "3C", "7D", "4C"] = .ok true ∧
    isOnePair ["2C", "2D", "2H", "7D", "4C"] = .ok false :=
  ⟨(isOnePair_iff ["2C", "2D", "3C", "7D", "4C"] (by decide)).2, by decide, by decide⟩

/-- C18, as stated, fails: `isOnePair` returns a boolean on a hand with a token
whose suit character is no suit, and `isFlush` on a hand with a token whose
rank character is no rank. -/
theorem detectors_accept_unread_character :
    (∃ t ∈ ["2X", "2C", "3D", "4H", "5S"], t.data.getD 1 ' ' ∉ suitChars) ∧
    isOnePair ["2X", "2C", "3D", "4H", "5S"] = .ok true ∧
    (∃ t ∈ ["1C", "2C", "3C", "4C", "5C"], t.data.getD 0 ' ' ∉ rankChars) ∧
    isFlush ["1C", "2C", "3C", "4C", "5C"] = .ok true := by
  decide

/-- C18, amended: a detector throws exactly on the malformed input it reads.
The six detectors that only count ranks throw exactly when a token has a
wrong length or a wrong rank character, `isFlush` exactly when a token has a
wrong length or a wrong suit character, and `isStraightFlush` and
`isRoyalFlush` exactly when a token has a wrong length, rank character or suit
character. -/
theorem detectors_error_iff (hand : List String) :
    ((∃ e, isOnePair hand = .error e) ↔
      ∃ t ∈ hand, t.length ≠ 2 ∨ t.data.getD 0 ' ' ∉ rankChars) ∧
    ((∃ e, isTwoPair hand = .error e) ↔
      ∃ t ∈ hand, t.length ≠ 2 ∨ t.data.getD 0 ' ' ∉ rankChars) ∧
    ((∃ e, isThreeOfAKind hand = .error e) ↔
      ∃ t ∈ hand, t.length ≠ 2 ∨ t.data.getD 0 ' ' ∉ rankChars) ∧
    ((∃ e, isStraight hand = .error e) ↔
      ∃ t ∈ hand, t.length ≠ 2 ∨ t.data.getD 0 ' ' ∉ rankChars) ∧
    ((∃ e, isFullHouse hand = .error e) ↔
      ∃ t ∈ hand, t.length ≠ 2 ∨ t.data.getD 0 ' ' ∉ rankChars) ∧
    ((∃ e, isFourOfAKind hand = .error e) ↔
      ∃ t ∈ hand, t.length ≠ 2 ∨ t.data.getD 0 ' ' ∉ rankChars) ∧
    ((∃ e, isFlush hand = .error e) ↔
      ∃ t ∈ hand, t.length ≠ 2 ∨ t.data.getD 1 ' ' ∉ suitChars) ∧
    ((∃ e, isStraightFlush hand = .error e) ↔
      ∃ t ∈ hand, t.length ≠ 2 ∨ t.data.getD 0 ' ' ∉ rankChars ∨
        t.data.getD 1 ' ' ∉ suitChars) ∧
    ((∃ e, isRoyalFlush hand = .error e) ↔
      ∃ t ∈ hand, t.length ≠ 2 ∨ t.data.getD 0 ' ' ∉ rankChars ∨
        t.data.getD 1 ' ' ∉ suitChars) := by
  have hn := numbers_error_iff hand
  have hs := suits_error_iff hand
  have hboth : ((∃ e, convertHandToNumbers hand = .error e) ∨
      ∃ e, convertHandToSuits hand = .error e) ↔
      ∃ t ∈ hand, t.length ≠ 2 ∨ t.data.getD 0 ' ' ∉ rankChars ∨
        t.data.getD 1 ' ' ∉ suitChars := by
    rw [hn, hs]
    constructor
    · rintro (⟨t, ht, h | h⟩ | ⟨t, ht, h | h⟩)
      · exact ⟨t, ht, Or.inl h⟩
      · exact ⟨t, ht, Or.inr (Or.inl h)⟩
      · exact ⟨t, ht, Or.inl h⟩
      · exact ⟨t, ht, Or.inr (Or.inr h)⟩
    · rintro ⟨t, ht, h | h | h⟩
      · exact Or.inl ⟨t, ht, Or.inl h⟩
      · exact Or.inl ⟨t, ht, Or.inr h⟩
      · exact Or.inr ⟨t, ht, Or.inr h⟩
  refine ⟨?_, ?_, ?_, ?_, ?_, ?_, ?_, ?_, ?_⟩
  · rw [← hn]; exact error_iff_of_numbers hand _
  · rw [← hn]; exact error_iff_of_numbers hand _
  · rw [← hn]; exact error_iff_of_numbers hand _
  · rw [← hn]; exact error_iff_of_numbers hand _
  · rw [← hn]; exact error_iff_of_numbers hand _
  · rw [← hn]; exact error_iff_of_numbers hand _
  · rw [← hs, isFlush]
    cases convertHandToSuits hand with
    | error e => simp
    | ok suits => simp
  · rw [← hboth]; exact error_iff_of_both hand _
  · rw [← hboth]; exact error_iff_of_both hand _

/-- C19: with a bet in the game the vector of actions still holds the bet
action `4`: the second `erase` removes the raise `5` instead, and the last
`erase` removes `4` only when the player's bet has reached the maximum. The
check `2` is never in the vector. -/
theorem chooseAction_with_bet (round coinBet maxBetting : Int) :
    chooseActionList round true coinBet maxBetting
      = .ok (if coinBet ≥ maxBetting then [1, 3] else [1, 3, 4]) ∧
    chooseActionList 1 true 0 10 = .ok [1, 3, 4] ∧
    chooseAction 1 true 0 10 2 = .ok 4 := by
  refine ⟨?_, by decide, by decide⟩
  by_cases h : coinBet ≥ maxBetting
  · simp [chooseActionList, eraseAt, h]
  · simp [chooseActionList, eraseAt, h]

/-- C20: on valid tokens `evaluateHand` depends on the multiset of the cards
only: a rearrangement of the hand is classified as the hand is, and every
detector returns on it what it returns on the hand. -/
theorem evaluateHand_perm (hand hand' : List String) (hv : ∀ t ∈ hand, ValidToken t)
    (hp : hand'.Perm hand) :
    evaluateHand hand' = evaluateHand hand ∧
    isRoyalFlush hand' = isRoyalFlush hand ∧ isStraightFlush hand' = isStraightFlush hand ∧
    isFourOfAKind hand' = isFourOfAKind hand ∧ isFullHouse hand' = isFullHouse hand ∧
    isFlush hand' = isFlush hand ∧ isStraight hand' = isStraight hand ∧
    isThreeOfAKind hand' = isThreeOfAKind hand ∧ isTwoPair hand' = isTwoPair hand ∧
    isOnePair hand' = isOnePair hand := by
  have hv' : ∀ t ∈ hand', ValidToken t := fun t ht => hv t (hp.mem_iff.mp ht)
  have hranks : (hand'.map cardRank).Perm (hand.map cardRank) := hp.map cardRank
  have hsuits : (hand'.map cardSuit).Perm (hand.map cardSuit) := hp.map cardSuit
  have hcounts := countOccurrences_perm hranks
  have h1 : isRoyalFlush hand' = isRoyalFlush hand := by
    rw [isRoyalFlush_valid hand hv, isRoyalFlush_valid hand' hv',
      any_group_perm hp suitHasRoyal suitHasRoyal_nil (fun _ _ h => suitHasRoyal_perm h)]
  have h2 : isStraightFlush hand' = isStraightFlush hand := by
    rw [isStraightFlush_valid hand hv, isStraightFlush_valid hand' hv',
      any_group_perm hp suitHasStraight suitHasStraight_nil
        (fun _ _ h => suitHasStraight_perm h)]
  have h3 : isFourOfAKind hand' = isFourOfAKind hand := by
    rw [isFourOfAKind_valid hand hv, isFourOfAKind_valid hand' hv', hcounts]
  have h4 : isFullHouse hand' = isFullHouse hand := by
    rw [isFullHouse_valid hand hv, isFullHouse_valid hand' hv', hcounts]
  have h5 : isFlush hand' = isFlush hand := by
    rw [isFlush_valid hand hv, isFlush_valid hand' hv', flushLoop_perm hsuits]
  have h6 : isStraight hand' = isStraight hand := by
    rw [isStraight_valid hand hv, isStraight_valid hand' hv', straightOfNumbers_perm hranks]
  have h7 : isThreeOfAKind hand' = isThreeOfAKind hand := by
    rw [isThreeOfAKind_valid hand hv, isThreeOfAKind_valid hand' hv', hcounts]
  have h8 : isTwoPair hand' = isTwoPair hand := by
    rw [isTwoPair_valid hand hv, isTwoPair_valid hand' hv', hcounts]
  have h9 : isOnePair hand' = isOnePair hand := by
    rw [isOnePair_valid hand hv, isOnePair_valid hand' hv', hcounts]
  refine ⟨?_, h1, h2, h3, h4, h5, h6, h7, h8, h9⟩
  simp only [evaluateHand, h1, h2, h3, h4, h5, h6, h7, h8, h9]

theorem evaluateHand_perm_witness :
    evaluateHand ["5C", "AC", "3H", "2D", "4S"] = evaluateHand ["AC", "2D", "3H", "4S", "5C"] ∧
    evaluateHand ["AC", "2D", "3H", "4S", "5C"] = .ok .Straight :=
  ⟨(evaluateHand_perm ["AC", "2D", "3H", "4S", "5C"] ["5C", "AC", "3H", "2D", "4S"]
      (by decide) (by decide)).1, by decide⟩

/-- C11: on five valid tokens `evaluateHand` returns `RoyalFlush` exactly when
all five cards share a suit and their ranks are 10, 11, 12, 13 and 14, the
ten being the character `T`; five cards of one suit with the ranks 9 to 13 are
classified `StraightFlush`. -/
theorem evaluateHand_royal_five (hand : List String) (hlen : hand.length = 5)
    (hv : ∀ t ∈ hand, ValidToken t) :
    (evaluateHand hand = .ok .RoyalFlush ↔
      (∃ s : Char, ∀ t ∈ hand, cardSuit t = s) ∧
        (hand.map cardRank).Perm [10, 11, 12, 13, 14]) ∧
    ((∃ s : Char, ∀ t ∈ hand, cardSuit t = s) →
      (hand.map cardRank).Perm [9, 10, 11, 12, 13] →
      evaluateHand hand = .ok .StraightFlush) ∧
    convertNumbers 'T' = .ok 10 ∧
    evaluateHand ["9C", "TC", "JC", "QC", "KC"] = .ok .StraightFlush := by
  refine ⟨(evaluateHand_royal_iff hand hv).trans (isRoyalFlush_five hand hlen hv), ?_,
    by decide, by decide⟩
  intro hsuit hranks
  have hrf : isRoyalFlush hand = .ok false := by
    rw [isRoyalFlush_valid hand hv]
    apply detector_false_of_not
    intro h
    have h1 := (isRoyalFlush_five hand hlen hv).mp
      (by rw [isRoyalFlush_valid hand hv, h])
    have h9 : (9 : Int) ∈ hand.map cardRank := hranks.mem_iff.mpr (by decide)
    have := h1.2.mem_iff.mp h9
    exact absurd this (by decide)
  have hsf : isStraightFlush hand = .ok true := by
    rw [isStraightFlush_five hand hlen hv]
    refine ⟨hsuit, ?_⟩
    rw [suitHasStraight_perm hranks]
    decide
  rw [evaluateHand_of_detectors hand false true _ _ _ _ _ _ _ hrf hsf
    (isFourOfAKind_valid hand hv) (isFullHouse_valid hand hv) (isFlush_valid hand hv)
    (isStraight_valid hand hv) (isThreeOfAKind_valid hand hv) (isTwoPair_valid hand hv)
    (isOnePair_valid hand hv)]
  rfl

theorem evaluateHand_royal_five_witness :
    (evaluateHand ["TC", "JC", "QC", "KC", "AC"] = .ok .RoyalFlush ↔
      (∃ s : Char, ∀ t ∈ ["TC", "JC", "QC", "KC", "AC"], cardSuit t = s) ∧
        (["TC", "JC", "QC", "KC", "AC"].map cardRank).Perm [10, 11, 12, 13, 14]) ∧
    evaluateHand ["TC", "JC", "QC", "KC", "AC"] = .ok .RoyalFlush ∧
    evaluateHand ["KH", "QH", "9H", "JH", "TH"] = .ok .StraightFlush :=
  ⟨(evaluateHand_royal_five ["TC", "JC", "QC", "KC", "AC"] rfl (by decide)).1, by decide,
    (evaluateHand_royal_five ["KH", "QH", "9H", "JH", "TH"] rfl (by decide)).2.1
      ⟨'H', by decide⟩ (by decide)⟩

/-- C12: on five valid tokens on which `isRoyalFlush` returns `true`, the
detectors `isStraightFlush`, `isFlush` and `isStraight` return `true` too. -/
theorem detectors_of_isRoyalFlush (hand : List String) (hlen : hand.length = 5)
    (hv : ∀ t ∈ hand, ValidToken t) (hroyal : isRoyalFlush hand = .ok true) :
    isStraightFlush hand = .ok true ∧ isFlush hand = .ok true ∧
      isStraight hand = .ok true := by
  obtain ⟨hsuit, hranks⟩ := (isRoyalFlush_five hand hlen hv).mp hroyal
  refine ⟨?_, (isFlush_five hand hlen hv).mpr hsuit, ?_⟩
  · rw [isStraightFlush_five hand hlen hv]
    refine ⟨hsuit, ?_⟩
    rw [suitHasStraight_perm hranks]
    decide
  · rw [isStraight_valid hand hv, straightOfNumbers_perm hranks]
    decide

theorem detectors_of_isRoyalFlush_witness :
    isStraightFlush ["AS", "KS", "QS", "JS", "TS"] = .ok true ∧
      isFlush ["AS", "KS", "QS", "JS", "TS"] = .ok true ∧
      isStraight ["AS", "KS", "QS", "JS", "TS"] = .ok true :=
  detectors_of_isRoyalFlush ["AS", "KS", "QS", "JS", "TS"] rfl (by decide) (by decide)

/-- C16: five valid tokens with the ranks ace, 2, 3, 4, 5 that do not all share
a suit are classified `Straight`, and neither `isRoyalFlush` nor
`isStraightFlush` holds on them. -/
theorem evaluateHand_wheel_mixed_suits (hand : List String) (hlen : hand.length = 5)
    (hv : ∀ t ∈ hand, ValidToken t) (hranks : (hand.map cardRank).Perm [14, 2, 3, 4, 5])
    (hsuits : ¬ ∃ s : Char, ∀ t ∈ hand, cardSuit t = s) :
    evaluateHand hand = .ok .Straight ∧ isRoyalFlush hand = .ok false ∧
      isStraightFlush hand = .ok false := by
  have hcount : ∀ r : Int, (hand.map cardRank).count r ≤ 1 := by
    intro r
    rw [hranks.count_eq]
    exact List.nodup_iff_count_le_one.mp (by decide) r
  have hrf : isRoyalFlush hand = .ok false := by
    rw [isRoyalFlush_valid hand hv]
    apply detector_false_of_not
    intro h
    exact hsuits ((isRoyalFlush_five hand hlen hv).mp
      (by rw [isRoyalFlush_valid hand hv, h])).1
  have hsf : isStraightFlush hand = .ok false := by
    rw [isStraightFlush_valid hand hv]
    apply detector_false_of_not
    intro h
    exact hsuits ((isStraightFlush_five hand hlen hv).mp
      (by rw [isStraightFlush_valid hand hv, h])).1
  have hfk : isFourOfAKind hand = .ok false := by
    rw [isFourOfAKind_valid hand hv]
    apply detector_false_of_not
    intro h
    obtain ⟨r, hr⟩ := (any_count_iff (hand.map cardRank) 4 (by decide)).mp h
    have := hcount r
    omega
  have hfh : isFullHouse hand = .ok false := by
    rw [isFullHouse_valid hand hv]
    apply detector_false_of_not
    intro h
    obtain ⟨r1, -, -, h1, -⟩ := (fullHouseOfCounts_iff (hand.map cardRank)).mp h
    have := hcount r1
    omega
  have hfl : isFlush hand = .ok false := by
    rw [isFlush_valid hand hv]
    apply detector_false_of_not
    intro h
    exact hsuits ((isFlush_five hand hlen hv).mp (by rw [isFlush_valid hand hv, h]))
  have hst : isStraight hand = .ok true := by
    rw [isStraight_valid hand hv, straightOfNumbers_perm hranks]
    decide
  refine ⟨?_, hrf, hsf⟩
  rw [evaluateHand_of_detectors hand false false false false false true _ _ _ hrf hsf hfk hfh
    hfl hst (isThreeOfAKind_valid hand hv) (isTwoPair_valid hand hv) (isOnePair_valid hand hv)]
  rfl

theorem evaluateHand_wheel_mixed_suits_witness :
    evaluateHand ["AC", "2D", "3H", "4S", "5C"] = .ok .Straight ∧
      isRoyalFlush ["AC", "2D", "3H", "4S", "5C"] = .ok false ∧
      isStraightFlush ["AC", "2D", "3H", "4S", "5C"] = .ok false :=
  evaluateHand_wheel_mixed_suits ["AC", "2D", "3H", "4S", "5C"] rfl (by decide) (by decide)
    (by
      rintro ⟨s, hs⟩
      have h1 : cardSuit "AC" = s := hs "AC" (by decide)
      have h2 : cardSuit "2D" = s := hs "2D" (by decide)
      exact absurd (h1.trans h2.symm) (by decide))

/-- C15: the selection is stable. For seven valid tokens and any comparator
the returned hand stands at some place of the enumeration of the 21 selected
hands (which starts with the first five cards) such that no hand enumerated
after it beats it: each later hand has a lower category, or the same category
with the comparator not returning `1`. When the comparator never returns `1`,
the returned hand is the first enumerated hand of the highest category. -/
theorem findBestFiveCardHand_stable
    (compareSameHands : List String → List String → Int) (hand : List String)
    (hlen : hand.length = 7) (hv : ∀ t ∈ hand, ValidToken t) (fuel : Nat) (hf : 21 ≤ fuel) :
    ∃ result pre post,
      findBestFiveCardHand compareSameHands fuel hand = some (.ok result) ∧
      fiveOfSeven.map (fun m => pickMask m hand) = pre ++ result :: post ∧
      (fiveOfSeven.map (fun m => pickMask m hand)).head? = some (hand.take 5) ∧
      (∀ T ∈ fiveOfSeven.map (fun m => pickMask m hand),
        evaluateHand T = .ok (categoryOf T)) ∧
      (∀ T ∈ post, categoryOf T < categoryOf result ∨
        (categoryOf T = categoryOf result ∧ compareSameHands T result ≠ 1)) ∧
      ((∀ a b, compareSameHands a b ≠ 1) →
        ∃ pre1 post1, fiveOfSeven.map (fun m => pickMask m hand) = pre1 ++ result :: post1 ∧
          (∀ T ∈ pre1, categoryOf T < categoryOf result) ∧
          ∀ T ∈ post1, categoryOf T ≤ categoryOf result) := by
  have htake : hand.take 7 = hand := List.take_of_length_le (by omega)
  have hv7 : ∀ t ∈ hand.take 7, ValidToken t := by rw [htake]; exact hv
  have heq := findBestFiveCardHand_eq compareSameHands fuel hand (by omega) hv7
  rw [if_pos hf] at heq
  have hhead := fiveOfSeven_picks_head hand (by omega)
  have heval : ∀ T ∈ fiveOfSeven.map (fun m => pickMask m hand),
      evaluateHand T = .ok (categoryOf T) := by
    intro T hT
    obtain ⟨m, hm, rfl⟩ := List.mem_map.mp hT
    obtain ⟨c, hc⟩ := picked_evaluates hand hv7 m hm
    rw [categoryOf_of_ok hc, hc]
  have hstable : ∃ pre post,
      fiveOfSeven.map (fun m => pickMask m hand)
        = pre ++ selectFold compareSameHands (hand.take 5)
            (fiveOfSeven.map (fun m => pickMask m hand)) :: post ∧
      ∀ T ∈ post, beats compareSameHands T (selectFold compareSameHands (hand.take 5)
        (fiveOfSeven.map (fun m => pickMask m hand))) = false := by
    rcases selectFold_stable compareSameHands (fiveOfSeven.map (fun m => pickMask m hand))
      (hand.take 5) with ⟨h1, h2⟩ | h
    · refine ⟨[], fiveOfSeven.tail.map (fun m => pickMask m hand), ?_, ?_⟩
      · rw [h1, List.nil_append]
        exact hhead
      · intro T hT
        rw [h1]
        apply h2
        rw [hhead]
        exact List.mem_cons_of_mem _ hT
    · exact h
  obtain ⟨pre, post, hsplit, hpost⟩ := hstable
  refine ⟨_, pre, post, heq, hsplit, by rw [hhead]; rfl, heval, ?_, ?_⟩
  · intro T hT
    exact (beats_false_iff compareSameHands T _).mp (hpost T hT)
  · intro hcmp
    rcases selectFold_first_max compareSameHands hcmp
      (fiveOfSeven.map (fun m => pickMask m hand)) (hand.take 5) with ⟨h1, h2⟩ | h
    · refine ⟨[], fiveOfSeven.tail.map (fun m => pickMask m hand), ?_, ?_, ?_⟩
      · rw [h1, List.nil_append]
        exact hhead
      · intro T hT
        exact absurd hT (List.not_mem_nil T)
      · intro T hT
        rw [h1]
        apply h2
        rw [hhead]
        exact List.mem_cons_of_mem _ hT
    · obtain ⟨pre1, post1, e1, -, e3, e4⟩ := h
      exact ⟨pre1, post1, e1, e3, e4⟩

theorem findBestFiveCardHand_stable_witness :
    ∃ result pre post,
      findBestFiveCardHand (fun _ _ => 0) 21 ["2C", "2D", "9H", "JS", "KC", "KD", "5H"]
        = some (.ok result) ∧
      fiveOfSeven.map (fun m => pickMask m ["2C", "2D", "9H", "JS", "KC", "KD", "5H"])
        = pre ++ result :: post ∧
      (fiveOfSeven.map (fun m => pickMask m ["2C", "2D", "9H", "JS", "KC", "KD", "5H"])).head?
        = some (["2C", "2D", "9H", "JS", "KC", "KD", "5H"].take 5) ∧
      (∀ T ∈ fiveOfSeven.map (fun m => pickMask m ["2C", "2D", "9H", "JS", "KC", "KD", "5H"]),
        evaluateHand T = .ok (categoryOf T)) ∧
      (∀ T ∈ post, categoryOf T < categoryOf result ∨
        (categoryOf T = categoryOf result ∧ (fun _ _ => (0 : Int)) T result ≠ 1)) ∧
      ((∀ a b : List String, (fun _ _ => (0 : Int)) a b ≠ 1) →
        ∃ pre1 post1,
          fiveOfSeven.map (fun m => pickMask m ["2C", "2D", "9H", "JS", "KC", "KD", "5H"])
            = pre1 ++ result :: post1 ∧
          (∀ T ∈ pre1, categoryOf T < categoryOf result) ∧
          ∀ T ∈ post1, categoryOf T ≤ categoryOf result) :=
  findBestFiveCardHand_stable (fun _ _ => 0) ["2C", "2D", "9H", "JS", "KC", "KD", "5H"] rfl
    (by decide) 21 (Nat.le_refl 21)

end PokerHelper
